import Mathlib

/-!
Shallow embedding of the punched-card reader `florida2000.py` (Datamuseum-DK/Florida2000).

The image is modelled as a total function from integer (row, column) coordinates to the
per-pixel intensity summed over color channels (every read in the source sums whole
channel vectors, and every write broadcasts a single value over the channels).
Python floats are modelled by exact rationals (the program only uses the dyadic
constants .5, .25, .125 and the decimal constants .087, .05, 6.5 on which the claims do
not depend at the precision of a double); Python `int()` truncation toward zero is
`pyInt`.  The debug-image path (`debug_image=None` in all claims considered) is fixed
to off, so the debug-guarded drawing branches are dead and omitted; the hole-outline
drawing in `is_hole`, which is NOT guarded by the debug flag in the source, is
included.  `scipy.stats.linregress` is modelled by its defining ordinary-least-squares
formulas over rationals.
-/

set_option maxRecDepth 8000

namespace Florida2000

/-- Python `int()` applied to a rational: truncation toward zero. -/
def pyInt (q : ℚ) : ℤ := if 0 ≤ q then ⌊q⌋ else ⌈q⌉

/-- Python `range(a, b)` over integers (step 1). -/
def intRange (a b : ℤ) : List ℤ := (List.range (b - a).toNat).map (fun i : ℕ => a + (i : ℤ))

/-- An image as the core reads it: height, width, the optional channel count of a
three-dimensional (color) array, and the per-pixel channel-summed intensity. -/
structure Image where
  ymax : ℤ
  xmax : ℤ
  channels : Option ℕ
  pix : ℤ → ℤ → ℕ

/-- Sum of `im[y][x0:x1]` (channel-summed). -/
def rowSum (im : Image) (y x0 x1 : ℤ) : ℕ :=
  ((intRange x0 x1).map (fun x => im.pix y x)).sum

/-- Sum of the rectangle `im[y0:y1, x0:x1]` (channel-summed). -/
def rectSum (im : Image) (y0 y1 x0 x1 : ℤ) : ℕ :=
  ((intRange y0 y1).map (fun y => rowSum im y x0 x1)).sum

/-- `DPI = 150`. -/
def DPI : ℚ := 150
/-- `EDGE_WIN = 10`, the (half-)window used to find card edges. -/
def EDGE_WIN : ℤ := 10
/-- `EXPECT_LEFT_EDGE = 50`. -/
def EXPECT_LEFT_EDGE : ℤ := 50
/-- `EXPECT_RIGHT_EDGE = -50`. -/
def EXPECT_RIGHT_EDGE : ℤ := -50
/-- `HOLE_Y = 3`. -/
def HOLE_Y : ℤ := 3
/-- `HOLE_X = 6`. -/
def HOLE_X : ℤ := 6
/-- `THRESHOLD = 50`. -/
def THRESHOLD : ℕ := 50
/-- `FINE_TUNE = .05`. -/
def FINE_TUNE : ℚ := 1/20

/-- `self.threshold = (2*HOLE_X+1) * (2*HOLE_Y+1) * THRESHOLD`, multiplied by
`self.im.shape[2]` when the image array is three-dimensional. -/
def threshold (im : Image) : ℕ :=
  (2 * 6 + 1) * (2 * 3 + 1) * THRESHOLD *
    (match im.channels with
     | none => 1
     | some c => c)

/-- Generic best-score selection: the `xl = 0; pk = 0; ... if score > pk: pk, xl = ...`
pattern of `measure_skew` and `find_front_edge` (the initial pair is `(xl, pk)`). -/
def pickBest (score : ℤ → ℤ) (init : ℤ × ℤ) (xs : List ℤ) : ℤ × ℤ :=
  xs.foldl (fun b x => let s := score x; if s > b.2 then (x, s) else b) init

/-- Left-edge contrast at candidate `x` on row `y`:
`light - dark` with `light = im[y][x:x+EDGE_WIN]`, `dark = im[y][x-EDGE_WIN:x]`. -/
def leftEdgeScore (im : Image) (y x : ℤ) : ℤ :=
  (rowSum im y x (x + EDGE_WIN) : ℤ) - (rowSum im y (x - EDGE_WIN) x : ℤ)

/-- Right-edge contrast at candidate `x` on row `y`:
`light - dark` with `dark = im[y][x:x+EDGE_WIN]`, `light = im[y][x-EDGE_WIN:x]`. -/
def rightEdgeScore (im : Image) (y x : ℤ) : ℤ :=
  (rowSum im y (x - EDGE_WIN) x : ℤ) - (rowSum im y x (x + EDGE_WIN) : ℤ)

/-- Candidate positions searched around the current center `c`:
`range(c - EDGE_WIN, c + EDGE_WIN)`. -/
def edgeCands (c : ℤ) : List ℤ := intRange (c - EDGE_WIN) (c + EDGE_WIN)

/-- The inner left-edge loop of `measure_skew` for one sampled row. -/
def leftEdgePick (im : Image) (y c : ℤ) : ℤ × ℤ :=
  pickBest (leftEdgeScore im y) (0, 0) (edgeCands c)

/-- The inner right-edge loop of `measure_skew` for one sampled row. -/
def rightEdgePick (im : Image) (y c : ℤ) : ℤ × ℤ :=
  pickBest (rightEdgeScore im y) (0, 0) (edgeCands c)

/-- `cl = int(cl + (xl - cl) * .125)`. -/
def clNext (cl xl : ℤ) : ℤ := pyInt ((cl : ℚ) + ((xl : ℚ) - (cl : ℚ)) * (1/8))

/-- `cr = int(cr + (cr - cr) * .125)` — exactly as written in the source. -/
def crNext (cr xr : ℤ) : ℤ := pyInt ((cr : ℚ) + ((cr : ℚ) - (cr : ℚ)) * (1/8))

/-- One sampled row of `measure_skew`: state is `((ys, left, right), cl, cr)`. -/
def skewStep (im : Image) (st : (List ℤ × List ℤ × List ℤ) × ℤ × ℤ) (y : ℤ) :
    (List ℤ × List ℤ × List ℤ) × ℤ × ℤ :=
  let cl := st.2.1
  let cr := st.2.2
  let xl := (leftEdgePick im y cl).1
  let xr := (rightEdgePick im y cr).1
  ((st.1.1 ++ [y], st.1.2.1 ++ [xl], st.1.2.2 ++ [xr]), clNext cl xl, crNext cr xr)

/-- The sampled rows `range(100, ymax - 200, 100)`. -/
def sampleRows (im : Image) : List ℤ :=
  (List.range ((im.ymax - 201).toNat / 100)).map (fun i : ℕ => 100 + 100 * (i : ℤ))

/-- The sampling loops of `measure_skew`, producing `(ys, left, right)` and the final
search centers. -/
def skewLoop (im : Image) : (List ℤ × List ℤ × List ℤ) × ℤ × ℤ :=
  (sampleRows im).foldl (skewStep im)
    (([], [], []), EXPECT_LEFT_EDGE, im.xmax + EXPECT_RIGHT_EDGE)

/-- A fitted edge line `x(y) = intercept + slope * y`. -/
structure LinFit where
  slope : ℚ
  intercept : ℚ
deriving DecidableEq

/-- `scipy.stats.linregress(xs, ys)` by its ordinary-least-squares definition. -/
def fitLine (xs ys : List ℤ) : LinFit :=
  let n : ℚ := xs.length
  let xm : ℚ := (xs.map (fun v => (v : ℚ))).sum / n
  let ym : ℚ := (ys.map (fun v => (v : ℚ))).sum / n
  let pairs := xs.zip ys
  let sxx : ℚ := (pairs.map (fun p => ((p.1 : ℚ) - xm) * ((p.1 : ℚ) - xm))).sum
  let sxy : ℚ := (pairs.map (fun p => ((p.1 : ℚ) - xm) * ((p.2 : ℚ) - ym))).sum
  { slope := sxy / sxx, intercept := ym - sxy / sxx * xm }

/-- `measure_skew`: run the sampling loops, then `lrl = linregress(ys, left)` and
`lrr = linregress(ys, right)`. -/
def measure_skew (im : Image) : LinFit × LinFit :=
  let s := skewLoop im
  (fitLine s.1.1 s.1.2.1, fitLine s.1.1 s.1.2.2)

/-- `center_x(y) = int((int(lrl.intercept + y*lrl.slope) + int(lrr.intercept + y*lrr.slope)) * .5)`. -/
def center_x (lrl lrr : LinFit) (y : ℚ) : ℤ :=
  pyInt ((((pyInt (lrl.intercept + y * lrl.slope) : ℚ) +
           (pyInt (lrr.intercept + y * lrr.slope) : ℚ))) * (1/2))

/-- Front-edge contrast at candidate row `y`:
`light = im[y-EDGE_WIN:y, x-EDGE_WIN:x+EDGE_WIN]`, `dark = im[y:y+EDGE_WIN, ...]`. -/
def feScore (im : Image) (lrl lrr : LinFit) (y : ℤ) : ℤ :=
  let x := center_x lrl lrr (y : ℚ)
  (rectSum im (y - EDGE_WIN) y (x - EDGE_WIN) (x + EDGE_WIN) : ℤ) -
    (rectSum im y (y + EDGE_WIN) (x - EDGE_WIN) (x + EDGE_WIN) : ℤ)

/-- Candidate rows of `find_front_edge`: `range(ymax-20, ymax-200, -1)`. -/
def feRows (im : Image) : List ℤ :=
  (List.range 180).map (fun i : ℕ => im.ymax - 20 - (i : ℤ))

/-- `find_front_edge`: the candidate row maximizing front-edge contrast, initialized to
`yb = ymax`, `yv = 0`, updated on strict improvement. -/
def find_front_edge (im : Image) (lrl lrr : LinFit) : ℤ :=
  (pickBest (feScore im lrl lrr) (im.ymax, 0) (feRows im)).1

/-- `hole_coord(col, row)`: the ideal (x, y) of a hole center (both rational). -/
def hole_coord (lrl lrr : LinFit) (y_front : ℤ) (col row : ℕ) : ℚ × ℚ :=
  let rowq : ℚ := (row : ℚ) - 13/2
  let colq : ℚ := (col : ℚ) - 1
  let dx : ℚ := rowq * (1/4) * DPI
  let y : ℚ := (y_front : ℚ) - (1/4 + 87/1000 * colq) * DPI - dx * lrr.slope
  let x : ℚ := (center_x lrl lrr y : ℚ) + dx
  (x, y)

/-- White value written by one numpy assignment `im[...] = 255` as seen by the
channel-summed pixel model (a scalar assignment broadcasts over the channels). -/
def white (im : Image) : ℕ :=
  255 * (match im.channels with
         | none => 1
         | some c => c)

/-- `im[y, x] = 255`. -/
def setPix (im : Image) (y x : ℤ) : Image :=
  { im with pix := fun a b => if a = y ∧ b = x then white im else im.pix a b }

/-- Write 255 at every listed coordinate, in order. -/
def writeAll (im : Image) (pts : List (ℤ × ℤ)) : Image :=
  pts.foldl (fun j p => setPix j p.1 p.2) im

/-- The coordinates written by the white-outline loops of `is_hole`, for loop
variables `ry`, `rx` (note the source sets `ry = y + off[0]`, `rx = x + off[1]`,
i.e. it adds the x-offset to y and the y-offset to x). -/
def outlinePts (ry rx : ℤ) : List (ℤ × ℤ) :=
  ((List.range 7).map (fun d : ℕ =>
      [(ry + HOLE_Y, rx + (d : ℤ)), (ry + HOLE_Y, rx - (d : ℤ)),
       (ry - HOLE_Y, rx + (d : ℤ)), (ry - HOLE_Y, rx - (d : ℤ))])).flatten ++
  ((List.range 4).map (fun d : ℕ =>
      [(ry + (d : ℤ), rx - HOLE_X), (ry - (d : ℤ), rx - HOLE_X),
       (ry + (d : ℤ), rx + HOLE_X), (ry - (d : ℤ), rx + HOLE_X)])).flatten

/-- `ww(dx, dy)`: the summed intensity of
`im[y+dy-HOLE_Y : y+dy+HOLE_Y+1, x+dx-HOLE_X : x+dx+HOLE_X+1]`. -/
def ww (im : Image) (x y : ℤ) (o : ℤ × ℤ) : ℕ :=
  rectSum im (y + o.2 - HOLE_Y) (y + o.2 + HOLE_Y + 1)
             (x + o.1 - HOLE_X) (x + o.1 + HOLE_X + 1)

/-- The candidate offsets in enumeration order: `for dx in (-1, 0, 1): for dy in
(-2, -1, 0, 1, 2)`. -/
def holeOffsets : List (ℤ × ℤ) :=
  [(-1, -2), (-1, -1), (-1, 0), (-1, 1), (-1, 2),
   (0, -2), (0, -1), (0, 0), (0, 1), (0, 2),
   (1, -2), (1, -1), (1, 0), (1, 1), (1, 2)]

/-- Generic least-score selection: the `w = 9e9; off = (0,0); ... if w2 < w:` pattern
of `is_hole` (the initial pair is `(w, off)`). -/
def argminFold (f : α → ℕ) (init : ℕ × α) (xs : List α) : ℕ × α :=
  xs.foldl (fun b o => let s := f o; if s < b.1 then (s, o) else b) init

/-- The offset search of `is_hole`: minimum window sum and its offset, with the
sentinel `9e9` and `(0, 0)` as initial values. -/
def wOff (im : Image) (x y : ℤ) : ℕ × (ℤ × ℤ) :=
  argminFold (ww im x y) (9000000000, (0, 0)) holeOffsets

/-- `is_hole(x, y)` with the debug path off: returns `(hole, weight, dx, dy)` and the
image, which a detected hole mutates by drawing a white outline. -/
def is_hole (im : Image) (x y : ℤ) : (ℕ × ℕ × ℤ × ℤ) × Image :=
  let m := wOff im x y
  if m.1 < threshold im then
    ((1, m.1, m.2.1, m.2.2), writeAll im (outlinePts (y + m.2.1) (x + m.2.2)))
  else
    ((0, 0, 0, 0), im)

/-- The mutable state of `find_holes`: the drift `(delta_x, delta_y)` and the image. -/
structure ScanSt where
  delta : ℚ × ℚ
  im : Image

/-- One grid cell of `find_holes`: predict coordinates, truncate, classify, and update
the drift by `FINE_TUNE` times the selected offset when a hole was found.  Returns
`(hole, dx, dy)` and the new state. -/
def holeCell (lrl lrr : LinFit) (y_front : ℤ) (st : ScanSt) (col row : ℕ) :
    (ℕ × ℤ × ℤ) × ScanSt :=
  let c := hole_coord lrl lrr y_front col row
  let x := pyInt (c.1 + st.delta.1)
  let y := pyInt (c.2 + st.delta.2)
  let r := is_hole st.im x y
  let h := r.1.1
  let dx := r.1.2.2.1
  let dy := r.1.2.2.2
  ((h, dx, dy),
   { delta := if h = 1 then (st.delta.1 + (dx : ℚ) * FINE_TUNE,
                             st.delta.2 + (dy : ℚ) * FINE_TUNE)
              else st.delta,
     im := r.2 })

/-- `range(1, 13)`: the row indices of one column. -/
def rows1to12 : List ℕ := [1, 2, 3, 4, 5, 6, 7, 8, 9, 10, 11, 12]

/-- `range(1, 81)`: the column indices. -/
def cols1to80 : List ℕ :=
  [1, 2, 3, 4, 5, 6, 7, 8, 9, 10, 11, 12, 13, 14, 15, 16, 17, 18, 19, 20,
   21, 22, 23, 24, 25, 26, 27, 28, 29, 30, 31, 32, 33, 34, 35, 36, 37, 38, 39, 40,
   41, 42, 43, 44, 45, 46, 47, 48, 49, 50, 51, 52, 53, 54, 55, 56, 57, 58, 59, 60,
   61, 62, 63, 64, 65, 66, 67, 68, 69, 70, 71, 72, 73, 74, 75, 76, 77, 78, 79, 80]

/-- The row step of one column of `find_holes`: `r.append(hole)` when reading the
front face, `r.insert(0, hole)` when reading the back face. -/
def rowStep (lrl lrr : LinFit) (y_front : ℤ) (front : Bool) (col : ℕ)
    (acc : List ℕ × ScanSt) (row : ℕ) : List ℕ × ScanSt :=
  let p := holeCell lrl lrr y_front acc.2 col row
  ((if front then acc.1 ++ [p.1.1] else p.1.1 :: acc.1), p.2)

/-- The inner row loop of `find_holes` for one column. -/
def colLoop (lrl lrr : LinFit) (y_front : ℤ) (front : Bool) (st : ScanSt) (col : ℕ) :
    List ℕ × ScanSt :=
  rows1to12.foldl (rowStep lrl lrr y_front front col) ([], st)

/-- The column step of `find_holes`: `self.holes.append(r)`. -/
def colStep (lrl lrr : LinFit) (y_front : ℤ) (front : Bool)
    (acc : List (List ℕ) × ScanSt) (col : ℕ) : List (List ℕ) × ScanSt :=
  let p := colLoop lrl lrr y_front front acc.2 col
  (acc.1 ++ [p.1], p.2)

/-- `find_holes(front)`: scan all 80 columns starting from drift `(0, 0)`. -/
def find_holes (im : Image) (lrl lrr : LinFit) (y_front : ℤ) (front : Bool) :
    List (List ℕ) × ScanSt :=
  cols1to80.foldl (colStep lrl lrr y_front front) ([], ⟨(0, 0), im⟩)

/-- Unfolding lemma for `find_holes` (stated manually; `find_holes` is made
irreducible below so that unification never expands the 80-column fold). -/
theorem find_holes_eq (im : Image) (lrl lrr : LinFit) (yf : ℤ) (front : Bool) :
    find_holes im lrl lrr yf front =
      cols1to80.foldl (colStep lrl lrr yf front) ([], ⟨(0, 0), im⟩) := rfl

attribute [irreducible] find_holes

/-- The classifications of one column in detection order (rows 1..12), with the same
state threading as `colLoop` but no insertion-order choice: used to compare the stored
column against the spec's "detection order" notion. -/
def detectionOrder (lrl lrr : LinFit) (y_front : ℤ) (col : ℕ) :
    ScanSt → List ℕ → List ℕ × ScanSt
  | st, [] => ([], st)
  | st, r :: t =>
      let p := holeCell lrl lrr y_front st col r
      let q := detectionOrder lrl lrr y_front col p.2 t
      (p.1.1 :: q.1, q.2)

/-- `sum(2**n * x for n, x in enumerate(reversed(r)))`, the enumerate part. -/
def colValueAux : ℕ → List ℕ → ℕ
  | _, [] => 0
  | n, x :: t => 2 ^ n * x + colValueAux (n + 1) t

/-- The 12-bit value of one column list. -/
def colValue (r : List ℕ) : ℕ := colValueAux 0 r.reverse

/-- The `HOLLERITH_TO_EBCDIC` dict literal, as the list of its written key-value
pairs in source order. -/
def HOLLERITH_TO_EBCDIC : List (Nat × Nat) := [
  (0b101100000011, 0x00),
  (0b100100000001, 0x01),
  (0b100010000001, 0x02),
  (0b100001000001, 0x03),
  (0b100000100001, 0x04),
  (0b100000010001, 0x05),
  (0b100000001001, 0x06),
  (0b100000000101, 0x07),
  (0b100000000011, 0x08),
  (0b100100000011, 0x09),
  (0b100010000011, 0x0a),
  (0b100001000011, 0x0b),
  (0b100000100011, 0x0c),
  (0b100000010011, 0x0d),
  (0b100000001011, 0x0e),
  (0b100000000111, 0x0f),
  (0b110100000011, 0x10),
  (0b010100000001, 0x11),
  (0b010010000001, 0x12),
  (0b010001000001, 0x13),
  (0b010000100001, 0x14),
  (0b010000010001, 0x15),
  (0b010000001001, 0x16),
  (0b010000000101, 0x17),
  (0b010000000011, 0x18),
  (0b010100000011, 0x19),
  (0b010010000011, 0x1a),
  (0b010001000011, 0x1b),
  (0b010000100011, 0x1c),
  (0b010000010011, 0x1d),
  (0b010000001011, 0x1e),
  (0b010000000111, 0x1f),
  (0b011100000011, 0x20),
  (0b001100000001, 0x21),
  (0b001010000001, 0x22),
  (0b001001000001, 0x23),
  (0b001000100001, 0x24),
  (0b001000010001, 0x25),
  (0b001000001001, 0x26),
  (0b001000000101, 0x27),
  (0b001000000011, 0x28),
  (0b001100000011, 0x29),
  (0b001010000011, 0x2a),
  (0b001001000011, 0x2b),
  (0b001000100011, 0x2c),
  (0b001000010011, 0x2d),
  (0b001000001011, 0x2e),
  (0b001000000111, 0x2f),
  (0b111100000011, 0x30),
  (0b000100000001, 0x31),
  (0b000010000001, 0x32),
  (0b000001000001, 0x33),
  (0b000000100001, 0x34),
  (0b000000010001, 0x35),
  (0b000000001001, 0x36),
  (0b000000000101, 0x37),
  (0b000000000011, 0x38),
  (0b000100000011, 0x39),
  (0b000010000011, 0x3a),
  (0b000001000011, 0x3b),
  (0b000000100011, 0x3c),
  (0b000000010011, 0x3d),
  (0b000000001011, 0x3e),
  (0b000000000111, 0x3f),
  (0b000000000000, 0x40),
  (0b101100000001, 0x41),
  (0b101010000001, 0x42),
  (0b101001000001, 0x43),
  (0b101000100001, 0x44),
  (0b101000010001, 0x45),
  (0b101000001001, 0x46),
  (0b101000000101, 0x47),
  (0b101000000011, 0x48),
  (0b100100000010, 0x49),
  (0b100010000010, 0x4a),
  (0b100001000010, 0x4b),
  (0b100000100010, 0x4c),
  (0b100000010010, 0x4d),
  (0b100000001010, 0x4e),
  (0b100000000110, 0x4f),
  (0b100000000000, 0x50),
  (0b110100000001, 0x51),
  (0b110010000001, 0x52),
  (0b110001000001, 0x53),
  (0b110000100001, 0x54),
  (0b110000010001, 0x55),
  (0b110000001001, 0x56),
  (0b110000000101, 0x57),
  (0b110000000011, 0x58),
  (0b010100000010, 0x59),
  (0b010010000010, 0x5a),
  (0b010001000010, 0x5b),
  (0b010000100010, 0x5c),
  (0b010000010010, 0x5d),
  (0b010000001010, 0x5e),
  (0b010000000110, 0x5f),
  (0b010000000000, 0x60),
  (0b001100000000, 0x61),
  (0b011010000001, 0x62),
  (0b011001000001, 0x63),
  (0b011000100001, 0x64),
  (0b011000010001, 0x65),
  (0b011000001001, 0x66),
  (0b011000000101, 0x67),
  (0b011000000011, 0x68),
  (0b001100000010, 0x69),
  (0b110000000000, 0x6a),
  (0b001001000010, 0x6b),
  (0b001000100010, 0x6c),
  (0b001000010010, 0x6d),
  (0b001000001010, 0x6e),
  (0b001000000110, 0x6f),
  (0b111000000000, 0x70),
  (0b111100000001, 0x71),
  (0b111010000001, 0x72),
  (0b111001000001, 0x73),
  (0b111000100001, 0x74),
  (0b111000010001, 0x75),
  (0b111000001001, 0x76),
  (0b111000000101, 0x77),
  (0b111000000011, 0x78),
  (0b000100000010, 0x79),
  (0b000010000010, 0x7a),
  (0b000001000010, 0x7b),
  (0b000000100010, 0x7c),
  (0b000000010010, 0x7d),
  (0b000000001010, 0x7e),
  (0b000000000110, 0x7f),
  (0b101100000010, 0x80),
  (0b101100000000, 0x81),
  (0b101010000000, 0x82),
  (0b101001000000, 0x83),
  (0b101000100000, 0x84),
  (0b101000010000, 0x85),
  (0b101000001000, 0x86),
  (0b101000000100, 0x87),
  (0b101000000010, 0x88),
  (0b101000000001, 0x89),
  (0b101010000010, 0x8a),
  (0b101001000010, 0x8b),
  (0b101000100010, 0x8c),
  (0b101000010010, 0x8d),
  (0b101000001010, 0x8e),
  (0b101000000110, 0x8f),
  (0b110100000010, 0x90),
  (0b110100000000, 0x91),
  (0b110010000000, 0x92),
  (0b110001000000, 0x93),
  (0b110000100000, 0x94),
  (0b110000010000, 0x95),
  (0b110000001000, 0x96),
  (0b110000000100, 0x97),
  (0b110000000010, 0x98),
  (0b110000000001, 0x99),
  (0b110010000010, 0x9a),
  (0b110001000010, 0x9b),
  (0b110000100010, 0x9c),
  (0b110000010010, 0x9d),
  (0b110000001010, 0x9e),
  (0b110000000110, 0x9f),
  (0b011100000010, 0xa0),
  (0b011100000000, 0xa1),
  (0b011010000000, 0xa2),
  (0b011001000000, 0xa3),
  (0b011000100000, 0xa4),
  (0b011000010000, 0xa5),
  (0b011000001000, 0xa6),
  (0b011000000100, 0xa7),
  (0b011000000010, 0xa8),
  (0b011000000001, 0xa9),
  (0b011010000010, 0xaa),
  (0b011001000010, 0xab),
  (0b011000100010, 0xac),
  (0b011000010010, 0xad),
  (0b011000001010, 0xae),
  (0b011000000110, 0xaf),
  (0b111100000010, 0xb0),
  (0b111100000000, 0xb1),
  (0b111010000000, 0xb2),
  (0b111001000000, 0xb3),
  (0b111000100000, 0xb4),
  (0b111000010000, 0xb5),
  (0b111000001000, 0xb6),
  (0b111000000100, 0xb7),
  (0b111000000010, 0xb8),
  (0b111000000001, 0xb9),
  (0b111010000010, 0xba),
  (0b111001000010, 0xbb),
  (0b111000100010, 0xbc),
  (0b111000010010, 0xbd),
  (0b111000001010, 0xbe),
  (0b111000000110, 0xbf),
  (0b101000000000, 0xc0),
  (0b100100000000, 0xc1),
  (0b100010000000, 0xc2),
  (0b100001000000, 0xc3),
  (0b100000100000, 0xc4),
  (0b100000010000, 0xc5),
  (0b100000001000, 0xc6),
  (0b100000000100, 0xc7),
  (0b100000000010, 0xc8),
  (0b100000000001, 0xc9),
  (0b101010000011, 0xca),
  (0b101001000011, 0xcb),
  (0b101000100011, 0xcc),
  (0b101000010011, 0xcd),
  (0b101000001011, 0xce),
  (0b101000000111, 0xcf),
  (0b011000000000, 0xd0),
  (0b010100000000, 0xd1),
  (0b010010000000, 0xd2),
  (0b010001000000, 0xd3),
  (0b010000100000, 0xd4),
  (0b010000010000, 0xd5),
  (0b010000001000, 0xd6),
  (0b010000000100, 0xd7),
  (0b010000000010, 0xd8),
  (0b010000000001, 0xd9),
  (0b110010000011, 0xda),
  (0b110001000011, 0xdb),
  (0b110000100011, 0xdc),
  (0b110000010011, 0xdd),
  (0b110000001011, 0xde),
  (0b110000000111, 0xdf),
  (0b001010000010, 0xe0),
  (0b011100000001, 0xe1),
  (0b001010000000, 0xe2),
  (0b001001000000, 0xe3),
  (0b001000100000, 0xe4),
  (0b001000010000, 0xe5),
  (0b001000001000, 0xe6),
  (0b001000000100, 0xe7),
  (0b001000000010, 0xe8),
  (0b001000000001, 0xe9),
  (0b011010000011, 0xea),
  (0b011001000011, 0xeb),
  (0b011000100011, 0xec),
  (0b011000010011, 0xed),
  (0b011000001011, 0xee),
  (0b011000000111, 0xef),
  (0b001000000000, 0xf0),
  (0b000100000000, 0xf1),
  (0b000010000000, 0xf2),
  (0b000001000000, 0xf3),
  (0b000000100000, 0xf4),
  (0b000000010000, 0xf5),
  (0b000000001000, 0xf6),
  (0b000000000100, 0xf7),
  (0b000000000010, 0xf8),
  (0b000000000001, 0xf9),
  (0b111010000011, 0xfa),
  (0b111001000011, 0xfb),
  (0b111000100011, 0xfc),
  (0b111000010011, 0xfd),
  (0b111000001011, 0xfe),
  (0b111000000111, 0xff)
]

/-- `HOLLERITH_TO_EBCDIC.get(i, 0)`: dictionary lookup with default 0. -/
def hollerithGet (i : Nat) : Nat := (HOLLERITH_TO_EBCDIC.lookup i).getD 0

/-- `PunchedCard.ebcdic`: map each column value through the table. -/
def ebcdic (values : List Nat) : List Nat := values.map hollerithGet

/-- Linear-time duplicate check for a list of naturals: fold a seen-set encoded as
a bit mask, rejecting a key whose bit is already set. -/
def nodupMask : List ℕ → ℕ → Bool
  | [], _ => true
  | k :: t, m => !(m.testBit k) && nodupMask t (m ||| (1 <<< k))

/-- The `self.values` loop of `__init__`: one `colValue` per stored column. -/
def cardValues (holes : List (List ℕ)) : List ℕ := holes.map colValue

/-- The full decoded card: `PunchedCard.__init__` with `debug_image=None`. -/
structure Card where
  lrl : LinFit
  lrr : LinFit
  y_front : ℤ
  holes : List (List ℕ)
  values : List ℕ
  scan : ScanSt

/-- The whole core pipeline of `PunchedCard.__init__` on an already-loaded image:
measure skew, locate the front edge, scan the holes, derive the column values. -/
def mkCard (im : Image) (front : Bool) : Card :=
  { lrl := (measure_skew im).1,
    lrr := (measure_skew im).2,
    y_front := find_front_edge im (measure_skew im).1 (measure_skew im).2,
    holes := (find_holes im (measure_skew im).1 (measure_skew im).2
      (find_front_edge im (measure_skew im).1 (measure_skew im).2) front).1,
    values := cardValues ((find_holes im (measure_skew im).1 (measure_skew im).2
      (find_front_edge im (measure_skew im).1 (measure_skew im).2) front).1),
    scan := (find_holes im (measure_skew im).1 (measure_skew im).2
      (find_front_edge im (measure_skew im).1 (measure_skew im).2) front).2 }

/-! ### General lemmas about the fold patterns and sums -/

theorem pyInt_intCast (n : ℤ) : pyInt (n : ℚ) = n := by
  unfold pyInt
  split <;> simp

theorem intRange_length (a b : ℤ) : (intRange a b).length = (b - a).toNat := by
  unfold intRange
  rw [List.length_map, List.length_range]

theorem intRange_bounds {a b x : ℤ} (h : x ∈ intRange a b) : a ≤ x ∧ x < b := by
  unfold intRange at h
  rw [List.mem_map] at h
  obtain ⟨i, hi, rfl⟩ := h
  rw [List.mem_range] at hi
  omega

theorem sum_map_const {α : Type} (l : List α) (f : α → ℕ) (c : ℕ)
    (h : ∀ x ∈ l, f x = c) : (l.map f).sum = l.length * c := by
  induction l with
  | nil => simp
  | cons a t ih =>
      simp only [List.map_cons, List.sum_cons, List.length_cons]
      rw [h a (by simp), ih (fun x hx => h x (List.mem_cons_of_mem a hx))]
      ring

theorem rowSum_const (im : Image) (y x0 x1 : ℤ) (c : ℕ)
    (h : ∀ x : ℤ, x0 ≤ x → x < x1 → im.pix y x = c) :
    rowSum im y x0 x1 = (x1 - x0).toNat * c := by
  unfold rowSum
  rw [sum_map_const _ _ c, intRange_length]
  intro x hx
  obtain ⟨h1, h2⟩ := intRange_bounds hx
  exact h x h1 h2

theorem rectSum_const (im : Image) (y0 y1 x0 x1 : ℤ) (c : ℕ)
    (h : ∀ y x : ℤ, y0 ≤ y → y < y1 → x0 ≤ x → x < x1 → im.pix y x = c) :
    rectSum im y0 y1 x0 x1 = (y1 - y0).toNat * ((x1 - x0).toNat * c) := by
  unfold rectSum
  rw [sum_map_const _ _ ((x1 - x0).toNat * c), intRange_length]
  intro y hy
  obtain ⟨h1, h2⟩ := intRange_bounds hy
  exact rowSum_const im y x0 x1 c (fun x hx1 hx2 => h y x h1 h2 hx1 hx2)

/-- Unfolding one step of best-selection. -/
theorem pickBest_cons (score : ℤ → ℤ) (init : ℤ × ℤ) (a : ℤ) (t : List ℤ) :
    pickBest score init (a :: t) =
      pickBest score (if score a > init.2 then (a, score a) else init) t := rfl

/-- If no candidate strictly beats the initial score, best-selection keeps the
initial pair. -/
theorem pickBest_all_le (score : ℤ → ℤ) (init : ℤ × ℤ) (xs : List ℤ)
    (h : ∀ x ∈ xs, score x ≤ init.2) : pickBest score init xs = init := by
  induction xs with
  | nil => rfl
  | cons a t ih =>
      have ha : ¬ (score a > init.2) := not_lt.mpr (h a (by simp))
      rw [pickBest_cons, if_neg ha]
      exact ih (fun x hx => h x (List.mem_cons_of_mem a hx))

/-- Best-selection either keeps the initial pair (when nothing strictly beats its
score) or returns a member attaining the maximal score, which strictly beats the
initial score. -/
theorem pickBest_spec (score : ℤ → ℤ) :
    ∀ (xs : List ℤ) (x0 p0 : ℤ),
      (pickBest score (x0, p0) xs = (x0, p0) ∧ ∀ x ∈ xs, score x ≤ p0) ∨
      (p0 < (pickBest score (x0, p0) xs).2 ∧
       score (pickBest score (x0, p0) xs).1 = (pickBest score (x0, p0) xs).2 ∧
       (pickBest score (x0, p0) xs).1 ∈ xs ∧
       ∀ x ∈ xs, score x ≤ (pickBest score (x0, p0) xs).2) := by
  intro xs
  induction xs with
  | nil => intro x0 p0; left; exact ⟨rfl, by simp⟩
  | cons a t ih =>
      intro x0 p0
      by_cases ha : score a > p0
      · have hstep : pickBest score (x0, p0) (a :: t) = pickBest score (a, score a) t := by
          rw [pickBest_cons, if_pos ha]
        rcases ih a (score a) with ⟨heq, hle⟩ | ⟨hlt, hat, hmem, hle⟩
        · right
          rw [hstep, heq]
          refine ⟨ha, rfl, by simp, ?_⟩
          intro x hx
          rcases List.mem_cons.mp hx with rfl | hx
          · exact le_refl _
          · exact hle x hx
        · right
          rw [hstep]
          refine ⟨lt_trans ha hlt, hat, List.mem_cons_of_mem a hmem, ?_⟩
          intro x hx
          rcases List.mem_cons.mp hx with rfl | hx
          · exact le_of_lt hlt
          · exact hle x hx
      · have hstep : pickBest score (x0, p0) (a :: t) = pickBest score (x0, p0) t := by
          rw [pickBest_cons, if_neg ha]
        rcases ih x0 p0 with ⟨heq, hle⟩ | ⟨hlt, hat, hmem, hle⟩
        · left
          rw [hstep, heq]
          refine ⟨rfl, ?_⟩
          intro x hx
          rcases List.mem_cons.mp hx with rfl | hx
          · exact not_lt.mp ha
          · exact hle x hx
        · right
          rw [hstep]
          refine ⟨hlt, hat, List.mem_cons_of_mem a hmem, ?_⟩
          intro x hx
          rcases List.mem_cons.mp hx with rfl | hx
          · exact le_trans (not_lt.mp ha) (le_of_lt hlt)
          · exact hle x hx

/-- Unfolding one step of least-score selection. -/
theorem argminFold_cons {α : Type} (f : α → ℕ) (init : ℕ × α) (a : α) (t : List α) :
    argminFold f init (a :: t) =
      argminFold f (if f a < init.1 then (f a, a) else init) t := rfl

/-- Least-score selection either keeps the initial pair (when no candidate is strictly
below its score) or returns the minimum score together with the FIRST candidate
attaining it, in list order. -/
theorem argminFold_spec {α : Type} (f : α → ℕ) [DecidableEq α] :
    ∀ (xs : List α) (w : ℕ) (o : α),
      (argminFold f (w, o) xs = (w, o) ∧ ∀ x ∈ xs, w ≤ f x) ∨
      ((argminFold f (w, o) xs).1 < w ∧
       f (argminFold f (w, o) xs).2 = (argminFold f (w, o) xs).1 ∧
       (∀ x ∈ xs, (argminFold f (w, o) xs).1 ≤ f x) ∧
       xs.find? (fun x => f x == (argminFold f (w, o) xs).1) =
         some (argminFold f (w, o) xs).2) := by
  intro xs
  induction xs with
  | nil => intro w o; left; exact ⟨rfl, by simp⟩
  | cons a t ih =>
      intro w o
      by_cases ha : f a < w
      · have hstep : argminFold f (w, o) (a :: t) = argminFold f (f a, a) t := by
          rw [argminFold_cons, if_pos ha]
        rcases ih (f a) a with ⟨heq, hle⟩ | ⟨hlt, hat, hle, hfind⟩
        · right
          rw [hstep, heq]
          refine ⟨ha, rfl, ?_, ?_⟩
          · intro x hx
            rcases List.mem_cons.mp hx with rfl | hx
            · exact le_refl _
            · exact hle x hx
          · rw [List.find?_cons]
            simp
        · right
          rw [hstep]
          refine ⟨lt_trans hlt ha, hat, ?_, ?_⟩
          · intro x hx
            rcases List.mem_cons.mp hx with rfl | hx
            · exact le_of_lt hlt
            · exact hle x hx
          · rw [List.find?_cons]
            have : ¬ (f a == (argminFold f (f a, a) t).1) = true := by
              simp only [beq_iff_eq]
              omega
            simp only [this, if_neg]
            simpa using hfind
      · have hstep : argminFold f (w, o) (a :: t) = argminFold f (w, o) t := by
          rw [argminFold_cons, if_neg ha]
        rcases ih w o with ⟨heq, hle⟩ | ⟨hlt, hat, hle, hfind⟩
        · left
          rw [hstep, heq]
          refine ⟨rfl, ?_⟩
          intro x hx
          rcases List.mem_cons.mp hx with rfl | hx
          · exact not_lt.mp ha
          · exact hle x hx
        · right
          rw [hstep]
          refine ⟨hlt, hat, ?_, ?_⟩
          · intro x hx
            rcases List.mem_cons.mp hx with rfl | hx
            · exact le_trans (le_of_lt hlt) (not_lt.mp ha)
            · exact hle x hx
          · rw [List.find?_cons]
            have : ¬ (f a == (argminFold f (w, o) t).1) = true := by
              simp only [beq_iff_eq]
              have := not_lt.mp ha
              omega
            simp only [this, if_neg]
            simpa using hfind

/-- The selected offset is the initial one or a member of the candidate list. -/
theorem argminFold_snd_mem {α : Type} (f : α → ℕ) :
    ∀ (xs : List α) (w : ℕ) (o : α),
      (argminFold f (w, o) xs).2 = o ∨ (argminFold f (w, o) xs).2 ∈ xs := by
  intro xs
  induction xs with
  | nil => intro w o; left; rfl
  | cons a t ih =>
      intro w o
      by_cases ha : f a < w
      · rw [argminFold_cons, if_pos ha]
        rcases ih (f a) a with h | h
        · right; rw [h]; simp
        · right; exact List.mem_cons_of_mem a h
      · rw [argminFold_cons, if_neg ha]
        rcases ih w o with h | h
        · left; exact h
        · right; exact List.mem_cons_of_mem a h

/-- `foldl min` is bounded by its initial value. -/
theorem foldl_min_le_init (l : List ℕ) (a : ℕ) : l.foldl min a ≤ a := by
  induction l generalizing a with
  | nil => exact le_refl a
  | cons x t ih => exact le_trans (ih (min a x)) (min_le_left a x)

/-- `foldl min` is bounded by every member. -/
theorem foldl_min_le_mem (l : List ℕ) (a x : ℕ) (hx : x ∈ l) : l.foldl min a ≤ x := by
  induction l generalizing a with
  | nil => cases hx
  | cons b t ih =>
      rcases List.mem_cons.mp hx with rfl | hx
      · exact le_trans (foldl_min_le_init t (min a x)) (min_le_right a x)
      · exact ih (min a b) hx

/-- A common lower bound of the initial value and all members bounds `foldl min`. -/
theorem le_foldl_min (l : List ℕ) (a m : ℕ) (ha : m ≤ a) (h : ∀ x ∈ l, m ≤ x) :
    m ≤ l.foldl min a := by
  induction l generalizing a with
  | nil => exact ha
  | cons b t ih =>
      exact ih (min a b) (le_min ha (h b (by simp)))
        (fun x hx => h x (List.mem_cons_of_mem b hx))

/-! ### Invariants of the image writes -/

theorem white_none (im : Image) (h : im.channels = none) : white im = 255 := by
  unfold white
  rw [h]
  rfl

theorem setPix_channels (im : Image) (y x : ℤ) : (setPix im y x).channels = im.channels := rfl

theorem setPix_pix (im : Image) (y x p q : ℤ) :
    (setPix im y x).pix p q = im.pix p q ∨ (setPix im y x).pix p q = white im := by
  unfold setPix
  by_cases h : p = y ∧ q = x
  · right; simp [h]
  · left; simp [h]

theorem writeAll_channels (pts : List (ℤ × ℤ)) :
    ∀ im : Image, (writeAll im pts).channels = im.channels := by
  induction pts with
  | nil => intro im; rfl
  | cons a t ih =>
      intro im
      show (writeAll (setPix im a.1 a.2) t).channels = im.channels
      rw [ih (setPix im a.1 a.2), setPix_channels]

theorem writeAll_white (pts : List (ℤ × ℤ)) (im : Image) :
    white (writeAll im pts) = white im := by
  unfold white
  rw [writeAll_channels]

theorem writeAll_pix (pts : List (ℤ × ℤ)) (p q : ℤ) :
    ∀ im : Image,
      (writeAll im pts).pix p q = im.pix p q ∨ (writeAll im pts).pix p q = white im := by
  induction pts with
  | nil => intro im; left; rfl
  | cons a t ih =>
      intro im
      have step : writeAll im (a :: t) = writeAll (setPix im a.1 a.2) t := rfl
      rw [step]
      rcases ih (setPix im a.1 a.2) with h | h
      · rw [h]
        rcases setPix_pix im a.1 a.2 p q with h2 | h2
        · left; exact h2
        · right; exact h2
      · right
        rw [h]
        show white (setPix im a.1 a.2) = white im
        unfold white
        rw [setPix_channels]

theorem is_hole_channels (im : Image) (x y : ℤ) :
    ((is_hole im x y).2).channels = im.channels := by
  simp only [is_hole]
  split
  · exact writeAll_channels _ im
  · rfl

theorem is_hole_pix (im : Image) (x y p q : ℤ) :
    ((is_hole im x y).2).pix p q = im.pix p q ∨ ((is_hole im x y).2).pix p q = white im := by
  simp only [is_hole]
  split
  · exact writeAll_pix _ p q im
  · left; rfl

theorem holeCell_snd_im (lrl lrr : LinFit) (yf : ℤ) (st : ScanSt) (col row : ℕ) :
    ((holeCell lrl lrr yf st col row).2).im =
      (is_hole st.im (pyInt ((hole_coord lrl lrr yf col row).1 + st.delta.1))
                     (pyInt ((hole_coord lrl lrr yf col row).2 + st.delta.2))).2 := rfl

theorem holeCell_channels (lrl lrr : LinFit) (yf : ℤ) (st : ScanSt) (col row : ℕ) :
    ((holeCell lrl lrr yf st col row).2).im.channels = st.im.channels := by
  rw [holeCell_snd_im]
  exact is_hole_channels st.im _ _

theorem holeCell_pix (lrl lrr : LinFit) (yf : ℤ) (st : ScanSt) (col row : ℕ) (p q : ℤ) :
    ((holeCell lrl lrr yf st col row).2).im.pix p q = st.im.pix p q ∨
    ((holeCell lrl lrr yf st col row).2).im.pix p q = white st.im := by
  rw [holeCell_snd_im]
  exact is_hole_pix st.im _ _ p q

/-- A pixel already at the white value stays at the white value across one cell. -/
theorem holeCell_white_pres (lrl lrr : LinFit) (yf : ℤ) (st : ScanSt) (col row : ℕ)
    (p q : ℤ) (h : st.im.pix p q = white st.im) :
    ((holeCell lrl lrr yf st col row).2).im.pix p q =
      white ((holeCell lrl lrr yf st col row).2).im := by
  have hch : white ((holeCell lrl lrr yf st col row).2).im = white st.im := by
    unfold white
    rw [holeCell_channels]
  rw [hch]
  rcases holeCell_pix lrl lrr yf st col row p q with h2 | h2
  · rw [h2, h]
  · exact h2

theorem rowStep_snd (lrl lrr : LinFit) (yf : ℤ) (front : Bool) (col : ℕ)
    (acc : List ℕ × ScanSt) (row : ℕ) :
    (rowStep lrl lrr yf front col acc row).2 = (holeCell lrl lrr yf acc.2 col row).2 := rfl

theorem colLoop_eq_fold (lrl lrr : LinFit) (yf : ℤ) (front : Bool) (st : ScanSt) (col : ℕ) :
    colLoop lrl lrr yf front st col =
      rows1to12.foldl (rowStep lrl lrr yf front col) ([], st) := rfl

theorem colStep_snd (lrl lrr : LinFit) (yf : ℤ) (front : Bool)
    (acc : List (List ℕ) × ScanSt) (col : ℕ) :
    (colStep lrl lrr yf front acc col).2 = (colLoop lrl lrr yf front acc.2 col).2 := rfl

theorem rowFold_channels (lrl lrr : LinFit) (yf : ℤ) (front : Bool) (col : ℕ)
    (rows : List ℕ) :
    ∀ (acc : List ℕ × ScanSt),
      ((rows.foldl (rowStep lrl lrr yf front col) acc).2).im.channels =
        acc.2.im.channels := by
  induction rows with
  | nil => intro acc; rfl
  | cons r t ih =>
      intro acc
      rw [List.foldl_cons, ih, rowStep_snd]
      exact holeCell_channels lrl lrr yf acc.2 col r

theorem rowFold_white_pres (lrl lrr : LinFit) (yf : ℤ) (front : Bool) (col : ℕ)
    (rows : List ℕ) (p q : ℤ) :
    ∀ (acc : List ℕ × ScanSt), acc.2.im.pix p q = white acc.2.im →
      ((rows.foldl (rowStep lrl lrr yf front col) acc).2).im.pix p q =
        white ((rows.foldl (rowStep lrl lrr yf front col) acc).2).im := by
  induction rows with
  | nil => intro acc h; exact h
  | cons r t ih =>
      intro acc h
      rw [List.foldl_cons]
      refine ih _ ?_
      rw [rowStep_snd]
      exact holeCell_white_pres lrl lrr yf acc.2 col r p q h

theorem rowFold_pix (lrl lrr : LinFit) (yf : ℤ) (front : Bool) (col : ℕ)
    (rows : List ℕ) (p q : ℤ) :
    ∀ (acc : List ℕ × ScanSt),
      ((rows.foldl (rowStep lrl lrr yf front col) acc).2).im.pix p q =
        acc.2.im.pix p q ∨
      ((rows.foldl (rowStep lrl lrr yf front col) acc).2).im.pix p q =
        white acc.2.im := by
  induction rows with
  | nil => intro acc; left; rfl
  | cons r t ih =>
      intro acc
      rw [List.foldl_cons]
      rcases ih (rowStep lrl lrr yf front col acc r) with h | h
      · rw [h, rowStep_snd]
        rcases holeCell_pix lrl lrr yf acc.2 col r p q with h2 | h2
        · left; exact h2
        · right; exact h2
      · right
        rw [h, rowStep_snd]
        unfold white
        rw [holeCell_channels]

theorem colFold_channels (lrl lrr : LinFit) (yf : ℤ) (front : Bool)
    (cols : List ℕ) :
    ∀ (acc : List (List ℕ) × ScanSt),
      ((cols.foldl (colStep lrl lrr yf front) acc).2).im.channels =
        acc.2.im.channels := by
  induction cols with
  | nil => intro acc; rfl
  | cons c t ih =>
      intro acc
      rw [List.foldl_cons, ih, colStep_snd, colLoop_eq_fold]
      exact rowFold_channels lrl lrr yf front c rows1to12 ([], acc.2)

theorem colFold_white_pres (lrl lrr : LinFit) (yf : ℤ) (front : Bool)
    (cols : List ℕ) (p q : ℤ) :
    ∀ (acc : List (List ℕ) × ScanSt), acc.2.im.pix p q = white acc.2.im →
      ((cols.foldl (colStep lrl lrr yf front) acc).2).im.pix p q =
        white ((cols.foldl (colStep lrl lrr yf front) acc).2).im := by
  induction cols with
  | nil => intro acc h; exact h
  | cons c t ih =>
      intro acc h
      rw [List.foldl_cons]
      refine ih _ ?_
      rw [colStep_snd, colLoop_eq_fold]
      exact rowFold_white_pres lrl lrr yf front c rows1to12 p q ([], acc.2) h

theorem colFold_pix (lrl lrr : LinFit) (yf : ℤ) (front : Bool)
    (cols : List ℕ) (p q : ℤ) :
    ∀ (acc : List (List ℕ) × ScanSt),
      ((cols.foldl (colStep lrl lrr yf front) acc).2).im.pix p q =
        acc.2.im.pix p q ∨
      ((cols.foldl (colStep lrl lrr yf front) acc).2).im.pix p q =
        white acc.2.im := by
  induction cols with
  | nil => intro acc; left; rfl
  | cons c t ih =>
      intro acc
      rw [List.foldl_cons]
      rcases ih (colStep lrl lrr yf front acc c) with h | h
      · rw [h, colStep_snd, colLoop_eq_fold]
        rcases rowFold_pix lrl lrr yf front c rows1to12 p q ([], acc.2) with h2 | h2
        · left; exact h2
        · right; exact h2
      · right
        rw [h, colStep_snd, colLoop_eq_fold]
        unfold white
        rw [rowFold_channels]

/-! ### Insertion order of the column lists -/

/-- Folding the rows with `append` insertion produces the accumulated prefix followed
by the detection-order sequence; with `insert(0)` insertion it produces the reversed
detection-order sequence followed by the prefix.  Both reach the same final state. -/
theorem rowFold_order (lrl lrr : LinFit) (yf : ℤ) (col : ℕ) :
    ∀ (rows : List ℕ) (st : ScanSt) (acc : List ℕ),
      (rows.foldl (rowStep lrl lrr yf true col) (acc, st)).1 =
        acc ++ (detectionOrder lrl lrr yf col st rows).1 ∧
      (rows.foldl (rowStep lrl lrr yf false col) (acc, st)).1 =
        (detectionOrder lrl lrr yf col st rows).1.reverse ++ acc ∧
      (rows.foldl (rowStep lrl lrr yf true col) (acc, st)).2 =
        (detectionOrder lrl lrr yf col st rows).2 ∧
      (rows.foldl (rowStep lrl lrr yf false col) (acc, st)).2 =
        (detectionOrder lrl lrr yf col st rows).2 := by
  intro rows
  induction rows with
  | nil => intro st acc; exact ⟨by simp [detectionOrder], by simp [detectionOrder],
      rfl, rfl⟩
  | cons r t ih =>
      intro st acc
      have hstep_t : rowStep lrl lrr yf true col (acc, st) r =
          (acc ++ [(holeCell lrl lrr yf st col r).1.1], (holeCell lrl lrr yf st col r).2) := rfl
      have hstep_f : rowStep lrl lrr yf false col (acc, st) r =
          ((holeCell lrl lrr yf st col r).1.1 :: acc, (holeCell lrl lrr yf st col r).2) := rfl
      have hdet : detectionOrder lrl lrr yf col st (r :: t) =
          ((holeCell lrl lrr yf st col r).1.1 ::
            (detectionOrder lrl lrr yf col (holeCell lrl lrr yf st col r).2 t).1,
           (detectionOrder lrl lrr yf col (holeCell lrl lrr yf st col r).2 t).2) := rfl
      obtain ⟨iht, ihf, ihst, ihsf⟩ :=
        ih (holeCell lrl lrr yf st col r).2 (acc ++ [(holeCell lrl lrr yf st col r).1.1])
      obtain ⟨_, ihf2, _, ihsf2⟩ :=
        ih (holeCell lrl lrr yf st col r).2 ((holeCell lrl lrr yf st col r).1.1 :: acc)
      refine ⟨?_, ?_, ?_, ?_⟩
      · rw [List.foldl_cons, hstep_t, iht, hdet]
        simp
      · rw [List.foldl_cons, hstep_f, ihf2, hdet]
        simp
      · rw [List.foldl_cons, hstep_t, ihst, hdet]
      · rw [List.foldl_cons, hstep_f, ihsf2, hdet]

/-! ### Shape of the hole grid -/

theorem rowFold_length (lrl lrr : LinFit) (yf : ℤ) (front : Bool) (col : ℕ) :
    ∀ (rows : List ℕ) (acc : List ℕ × ScanSt),
      ((rows.foldl (rowStep lrl lrr yf front col) acc).1).length =
        acc.1.length + rows.length := by
  intro rows
  induction rows with
  | nil => intro acc; simp
  | cons r t ih =>
      intro acc
      rw [List.foldl_cons, ih]
      have : ((rowStep lrl lrr yf front col acc r).1).length = acc.1.length + 1 := by
        unfold rowStep
        cases front <;> simp
      rw [this]
      simp [List.length_cons]
      ring

theorem colLoop_length (lrl lrr : LinFit) (yf : ℤ) (front : Bool) (st : ScanSt) (col : ℕ) :
    ((colLoop lrl lrr yf front st col).1).length = 12 := by
  rw [colLoop_eq_fold, rowFold_length]
  rfl

theorem colFold_holes_shape (lrl lrr : LinFit) (yf : ℤ) (front : Bool) :
    ∀ (cols : List ℕ) (acc : List (List ℕ) × ScanSt),
      ((cols.foldl (colStep lrl lrr yf front) acc).1).length =
          acc.1.length + cols.length ∧
      ((∀ l ∈ acc.1, l.length = 12) →
        ∀ l ∈ (cols.foldl (colStep lrl lrr yf front) acc).1, l.length = 12) := by
  intro cols
  induction cols with
  | nil => intro acc; exact ⟨by simp, fun h => h⟩
  | cons c t ih =>
      intro acc
      obtain ⟨ihlen, ihall⟩ := ih (colStep lrl lrr yf front acc c)
      constructor
      · rw [List.foldl_cons, ihlen]
        have : ((colStep lrl lrr yf front acc c).1).length = acc.1.length + 1 := by
          unfold colStep
          simp
        rw [this]
        simp [List.length_cons]
        ring
      · intro hacc l hl
        rw [List.foldl_cons] at hl
        refine ihall ?_ l hl
        intro l2 hl2
        unfold colStep at hl2
        simp only [List.mem_append, List.mem_singleton] at hl2
        rcases hl2 with h2 | h2
        · exact hacc l2 h2
        · rw [h2]
          exact colLoop_length lrl lrr yf front acc.2 c

/-! ### The column value -/

theorem colValueAux_append (n : ℕ) (l : List ℕ) (a : ℕ) :
    colValueAux n (l ++ [a]) = colValueAux n l + 2 ^ (n + l.length) * a := by
  induction l generalizing n with
  | nil => simp [colValueAux]
  | cons b t ih =>
      simp only [List.cons_append, colValueAux, List.length_cons, List.append_eq]
      rw [ih (n + 1)]
      ring

/-- The bit packing of one stored column list of length 12: entry `r` (1-based row
`r`) carries weight `2 ^ (12 - r)`. -/
theorem colValue_twelve (a1 a2 a3 a4 a5 a6 a7 a8 a9 a10 a11 a12 : ℕ) :
    colValue [a1, a2, a3, a4, a5, a6, a7, a8, a9, a10, a11, a12] =
      a1 * 2 ^ 11 + a2 * 2 ^ 10 + a3 * 2 ^ 9 + a4 * 2 ^ 8 + a5 * 2 ^ 7 + a6 * 2 ^ 6 +
      a7 * 2 ^ 5 + a8 * 2 ^ 4 + a9 * 2 ^ 3 + a10 * 2 ^ 2 + a11 * 2 ^ 1 + a12 * 2 ^ 0 := by
  show colValueAux 0 ([a1, a2, a3, a4, a5, a6, a7, a8, a9, a10, a11, a12].reverse) = _
  simp only [List.reverse_cons, List.reverse_nil, List.nil_append, List.cons_append,
    List.append_assoc, List.singleton_append]
  simp [colValueAux]
  ring

theorem length_twelve_destruct (l : List ℕ) (h : l.length = 12) :
    ∃ a1 a2 a3 a4 a5 a6 a7 a8 a9 a10 a11 a12 : ℕ,
      l = [a1, a2, a3, a4, a5, a6, a7, a8, a9, a10, a11, a12] := by
  match l, h with
  | [a1, a2, a3, a4, a5, a6, a7, a8, a9, a10, a11, a12], _ =>
      exact ⟨a1, a2, a3, a4, a5, a6, a7, a8, a9, a10, a11, a12, rfl⟩

/-! ### Concrete test images -/

/-- A synthetic scan: uniform card material (intensity 200) from x = 50 to x = 537 on a
black background, with one dark (punched) rectangle exactly covering the search
windows of grid cell (column 1, row 1). -/
def exImg : Image :=
  { ymax := 1181, xmax := 590, channels := none,
    pix := fun y x =>
      if 80 ≤ x ∧ x ≤ 94 ∧ 1138 ≤ y ∧ y ≤ 1148 then 0
      else if 50 ≤ x ∧ x < 538 then 200
      else 0 }

/-- A uniform image: every pixel has intensity 200, so no contrast anywhere. -/
def uniImg : Image :=
  { ymax := 1181, xmax := 590, channels := none, pix := fun _ _ => 200 }

/-- A left-edge-only image: black for x < 50, card material for x ≥ 50. -/
def eImg : Image :=
  { ymax := 1181, xmax := 590, channels := none,
    pix := fun _ x => if 50 ≤ x then 200 else 0 }

/-- A bright strip from x = 50 to x = 59 on black: a left-to-right transition at 50
and a right-to-left transition at 60. -/
def imD : Image :=
  { ymax := 1181, xmax := 590, channels := none,
    pix := fun _ x => if 50 ≤ x ∧ x < 60 then 200 else 0 }

/-- An all-black small image for the hole-detector witnesses. -/
def imC1 : Image := { ymax := 40, xmax := 40, channels := none, pix := fun _ _ => 0 }

/-- Another all-black small image for the offset-search witness. -/
def imC10 : Image := { ymax := 60, xmax := 60, channels := none, pix := fun _ _ => 0 }

/-- An arbitrary image for the column-value witness. -/
def imC2 : Image := { ymax := 1181, xmax := 590, channels := none, pix := fun _ _ => 7 }

/-! ### Claim C5 -/

/-- Claim C5 (code bug witnessed): the source updates the right search-center with
`cr = int(cr + (cr - cr) * .125)`, so the right-edge center never moves, for any found
x — while the left-edge center `cl = int(cl + (xl - cl) * .125)` does move (e.g. from
50 toward 58, giving 51).  This contradicts the claim (and the spec) that BOTH edge
centers are low-pass updated toward the found x. -/
theorem claim5_right_center_frozen :
    (∀ cr xr : ℤ, crNext cr xr = cr) ∧ clNext 50 58 = 51 ∧ crNext 540 538 = 540 := by
  have hfrozen : ∀ cr xr : ℤ, crNext cr xr = cr := by
    intro cr xr
    unfold crNext
    have h : ((cr : ℚ) + ((cr : ℚ) - (cr : ℚ)) * (1/8)) = ((cr : ℤ) : ℚ) := by ring
    rw [h, pyInt_intCast]
  refine ⟨hfrozen, ?_, hfrozen 540 538⟩
  have h : ((50 : ℤ) : ℚ) + (((58 : ℤ) : ℚ) - ((50 : ℤ) : ℚ)) * (1/8) = ((51 : ℤ) : ℚ) := by
    norm_num
  unfold clNext
  rw [h, pyInt_intCast]

/-! ### Claim C7 -/

/-- Claim C7: with `front = True` the stored column list equals the sequence of the 12
per-cell classifications in detection order (rows 1..12), and with `front = False`
(back face, `r.insert(0, hole)`) it equals the reverse of that sequence; the threaded
scan state is the same either way. -/
theorem claim7_insertion_order (lrl lrr : LinFit) (yf : ℤ) (st : ScanSt) (col : ℕ) :
    (colLoop lrl lrr yf true st col).1 =
      (detectionOrder lrl lrr yf col st rows1to12).1 ∧
    (colLoop lrl lrr yf false st col).1 =
      (detectionOrder lrl lrr yf col st rows1to12).1.reverse ∧
    (colLoop lrl lrr yf true st col).2 =
      (detectionOrder lrl lrr yf col st rows1to12).2 ∧
    (colLoop lrl lrr yf false st col).2 =
      (detectionOrder lrl lrr yf col st rows1to12).2 := by
  obtain ⟨h1, h2, h3, h4⟩ := rowFold_order lrl lrr yf col rows1to12 st []
  rw [colLoop_eq_fold, colLoop_eq_fold]
  refine ⟨?_, ?_, h3, h4⟩
  · rw [h1]; simp
  · rw [h2]; simp

/-! ### Claim C9 -/

/-- Zeta-expanded form of `is_hole`. -/
theorem is_hole_def2 (im : Image) (x y : ℤ) :
    is_hole im x y =
      if (wOff im x y).1 < threshold im then
        ((1, (wOff im x y).1, (wOff im x y).2.1, (wOff im x y).2.2),
         writeAll im (outlinePts (y + (wOff im x y).2.1) (x + (wOff im x y).2.2)))
      else ((0, 0, 0, 0), im) := rfl

/-- The offset returned by `is_hole` ranges over dx in [-1, 1], dy in [-2, 2]. -/
theorem is_hole_off_bounds (im : Image) (x y : ℤ) :
    -1 ≤ (is_hole im x y).1.2.2.1 ∧ (is_hole im x y).1.2.2.1 ≤ 1 ∧
    -2 ≤ (is_hole im x y).1.2.2.2 ∧ (is_hole im x y).1.2.2.2 ≤ 2 := by
  have hmem := argminFold_snd_mem (ww im x y) holeOffsets 9000000000 (0, 0)
  have hoff : ∀ o ∈ holeOffsets, (-1 ≤ o.1 ∧ o.1 ≤ 1 ∧ -2 ≤ o.2 ∧ o.2 ≤ 2) := by decide
  rw [is_hole_def2]
  by_cases hc : (wOff im x y).1 < threshold im
  · rw [if_pos hc]
    dsimp only
    rcases hmem with h | h
    · have h2 : (wOff im x y).2 = (0, 0) := h
      rw [h2]
      norm_num
    · exact hoff _ h
  · rw [if_neg hc]
    norm_num

/-- Claim C9: the drift starts at (0, 0) when `find_holes` begins; each cell updates
it exactly when the cell is classified punched, by adding `FINE_TUNE` times the
selected offset, whose components are bounded by 1 horizontally and 2 vertically;
unpunched cells leave the drift untouched, and no step resets it. -/
theorem claim9_drift_update :
    (∀ (im : Image) (lrl lrr : LinFit) (yf : ℤ) (front : Bool),
       find_holes im lrl lrr yf front =
         cols1to80.foldl (colStep lrl lrr yf front) ([], ⟨(0, 0), im⟩)) ∧
    (∀ (lrl lrr : LinFit) (yf : ℤ) (st : ScanSt) (col row : ℕ),
       ((holeCell lrl lrr yf st col row).2).delta =
         (if (holeCell lrl lrr yf st col row).1.1 = 1
          then (st.delta.1 + ((holeCell lrl lrr yf st col row).1.2.1 : ℚ) * FINE_TUNE,
                st.delta.2 + ((holeCell lrl lrr yf st col row).1.2.2 : ℚ) * FINE_TUNE)
          else st.delta) ∧
       (-1 ≤ (holeCell lrl lrr yf st col row).1.2.1 ∧
        (holeCell lrl lrr yf st col row).1.2.1 ≤ 1 ∧
        -2 ≤ (holeCell lrl lrr yf st col row).1.2.2 ∧
        (holeCell lrl lrr yf st col row).1.2.2 ≤ 2)) := by
  refine ⟨fun im lrl lrr yf front => find_holes_eq im lrl lrr yf front,
    fun lrl lrr yf st col row => ⟨rfl, ?_⟩⟩
  exact is_hole_off_bounds st.im _ _

/-! ### Claim C10 -/

/-- Claim C10: provided every candidate window sum is below the `9e9` sentinel (true
of any real scan), the offset search of `is_hole` returns the minimum of the 15
window sums together with the FIRST offset attaining it in enumeration order (dx
outermost over (-1, 0, 1), dy innermost over (-2, -1, 0, 1, 2)), because a later
candidate replaces the incumbent only on a strictly smaller sum. -/
theorem claim10_first_minimizer (im : Image) (x y : ℤ)
    (h : ∀ o ∈ holeOffsets, ww im x y o < 9000000000) :
    (∀ o ∈ holeOffsets, (wOff im x y).1 ≤ ww im x y o) ∧
    ww im x y (wOff im x y).2 = (wOff im x y).1 ∧
    holeOffsets.find? (fun o => ww im x y o == (wOff im x y).1) =
      some (wOff im x y).2 := by
  rcases argminFold_spec (ww im x y) holeOffsets 9000000000 (0, 0) with
    ⟨_, hge⟩ | ⟨_, hat, hle, hfind⟩
  · exact absurd (h (-1, -2) (by decide)) (not_lt.mpr (hge (-1, -2) (by decide)))
  · exact ⟨hle, hat, hfind⟩

/-- Witness for C10 at the all-black image: all sums are 0, below the sentinel. -/
theorem claim10_witness :
    (∀ o ∈ holeOffsets, ww imC10 30 30 o < 9000000000) ∧
    ((∀ o ∈ holeOffsets, (wOff imC10 30 30).1 ≤ ww imC10 30 30 o) ∧
     ww imC10 30 30 (wOff imC10 30 30).2 = (wOff imC10 30 30).1 ∧
     holeOffsets.find? (fun o => ww imC10 30 30 o == (wOff imC10 30 30).1) =
       some (wOff imC10 30 30).2) := by
  have h : ∀ o ∈ holeOffsets, ww imC10 30 30 o < 9000000000 := by
    with_unfolding_all decide
  exact ⟨h, claim10_first_minimizer imC10 30 30 h⟩

/-! ### Claim C1 -/

/-- The minimum of the 15 candidate window sums of `is_hole`. -/
def minWW (im : Image) (x y : ℤ) : ℕ :=
  (holeOffsets.map (ww im x y)).foldl min (ww im x y (-1, -2))

/-- The hole bit returned by `is_hole` is the threshold comparison on the fold value. -/
theorem is_hole_fst (im : Image) (x y : ℤ) :
    (is_hole im x y).1.1 = if (wOff im x y).1 < threshold im then 1 else 0 := by
  rw [is_hole_def2]
  by_cases hc : (wOff im x y).1 < threshold im
  · rw [if_pos hc, if_pos hc]
  · rw [if_neg hc, if_neg hc]

/-- Claim C1: for a grayscale (2-d) or three-channel image, a cell is classified as
punched if and only if the minimum over the 15 candidate offsets of the
(2·HOLE_X+1) × (2·HOLE_Y+1) window sum is strictly below
`(2·HOLE_X+1)·(2·HOLE_Y+1)·THRESHOLD` (times the channel count for a color image);
a minimum exactly equal to the threshold is not a hole. -/
theorem claim1_hole_iff_min_below_threshold (im : Image) (x y : ℤ)
    (hch : im.channels = none ∨ im.channels = some 3) :
    (is_hole im x y).1.1 = 1 ↔ minWW im x y < threshold im := by
  have hthr : threshold im < 9000000000 := by
    rcases hch with h | h <;> rw [threshold, h] <;> norm_num [THRESHOLD]
  rw [is_hole_fst]
  rcases argminFold_spec (ww im x y) holeOffsets 9000000000 (0, 0) with
    ⟨heq, hge⟩ | ⟨hlt, hat, hle, hfind⟩
  · have hw : (wOff im x y).1 = 9000000000 := by
      unfold wOff
      rw [heq]
    have hmin : 9000000000 ≤ minWW im x y := by
      apply le_foldl_min
      · exact hge (-1, -2) (by decide)
      · intro v hv
        rw [List.mem_map] at hv
        obtain ⟨o, ho, rfl⟩ := hv
        exact hge o ho
    rw [hw]
    constructor
    · intro hcontr
      split at hcontr
      · omega
      · exact absurd hcontr (by norm_num)
    · intro hcontr
      omega
  · have hmem : (wOff im x y).2 ∈ holeOffsets := List.mem_of_find?_eq_some hfind
    have hmineq : minWW im x y = (wOff im x y).1 := by
      apply le_antisymm
      · apply foldl_min_le_mem
        rw [List.mem_map]
        exact ⟨(wOff im x y).2, hmem, hat⟩
      · apply le_foldl_min
        · exact hle (-1, -2) (by decide)
        · intro v hv
          rw [List.mem_map] at hv
          obtain ⟨o, ho, rfl⟩ := hv
          exact hle o ho
    rw [hmineq]
    constructor
    · intro hcond
      split at hcond
      · assumption
      · exact absurd hcond (by norm_num)
    · intro hcond
      rw [if_pos hcond]

/-- Witness for C1 at a grayscale image. -/
theorem claim1_witness :
    (imC1.channels = none ∨ imC1.channels = some 3) ∧
    ((is_hole imC1 20 20).1.1 = 1 ↔ minWW imC1 20 20 < threshold imC1) :=
  ⟨Or.inl rfl, claim1_hole_iff_min_below_threshold imC1 20 20 (Or.inl rfl)⟩

/-! ### Claim C4 -/

theorem uniImg_leftScore (y x : ℤ) : leftEdgeScore uniImg y x = 0 := by
  unfold leftEdgeScore
  rw [rowSum_const uniImg y x (x + EDGE_WIN) 200 (fun _ _ _ => rfl),
      rowSum_const uniImg y (x - EDGE_WIN) x 200 (fun _ _ _ => rfl)]
  have h1 : x + EDGE_WIN - x = (10 : ℤ) := by unfold EDGE_WIN; ring
  have h2 : x - (x - EDGE_WIN) = (10 : ℤ) := by unfold EDGE_WIN; ring
  rw [h1, h2]
  norm_num

theorem uniImg_rightScore (y x : ℤ) : rightEdgeScore uniImg y x = 0 := by
  unfold rightEdgeScore
  rw [rowSum_const uniImg y x (x + EDGE_WIN) 200 (fun _ _ _ => rfl),
      rowSum_const uniImg y (x - EDGE_WIN) x 200 (fun _ _ _ => rfl)]
  have h1 : x + EDGE_WIN - x = (10 : ℤ) := by unfold EDGE_WIN; ring
  have h2 : x - (x - EDGE_WIN) = (10 : ℤ) := by unfold EDGE_WIN; ring
  rw [h1, h2]
  norm_num

theorem uniImg_feScore (lrl lrr : LinFit) (yc : ℤ) : feScore uniImg lrl lrr yc = 0 := by
  simp only [feScore]
  generalize center_x lrl lrr (yc : ℚ) = x
  rw [rectSum_const uniImg (yc - EDGE_WIN) yc (x - EDGE_WIN) (x + EDGE_WIN) 200
        (fun _ _ _ _ _ _ => rfl),
      rectSum_const uniImg yc (yc + EDGE_WIN) (x - EDGE_WIN) (x + EDGE_WIN) 200
        (fun _ _ _ _ _ _ => rfl)]
  have h1 : yc - (yc - EDGE_WIN) = (10 : ℤ) := by unfold EDGE_WIN; ring
  have h2 : yc + EDGE_WIN - yc = (10 : ℤ) := by unfold EDGE_WIN; ring
  have h3 : x + EDGE_WIN - (x - EDGE_WIN) = (20 : ℤ) := by unfold EDGE_WIN; ring
  rw [h1, h2, h3]
  norm_num

/-- Counterexample to claim C4: on a uniform image no candidate beats the score
sentinel on the first sampled row, and the recorded x for that row is the sentinel 0,
NOT the incoming search-center 50. -/
theorem claim4_counterexample :
    ((edgeCands 50).all (fun x => decide (leftEdgeScore uniImg 100 x ≤ 0))) = true ∧
    (leftEdgePick uniImg 100 50).1 = 0 ∧ ¬ (leftEdgePick uniImg 100 50).1 = 50 := by
  with_unfolding_all decide

/-- Claim C4 as amended: if no candidate produces a positive contrast score on a
sampled row, the recorded x for that row is the initialization sentinel 0 (with score
0), for the left and the right edge alike — not the previous search-center; the next
left search-center is then low-pass-moved toward that 0 (`cl = int(cl + (0-cl)*.125)`)
while the right search-center stays exactly where it was (it never moves, whatever is
found — the C5 slip); if no candidate front-edge row produces a positive contrast
score, `y_front` keeps its initialization value `ymax`.  No condition raises an
error: the functions are total. -/
theorem claim4_amended_sentinel (im : Image) (y cl cr : ℤ) (a b c : List ℤ)
    (lrl lrr : LinFit)
    (h1 : ∀ x ∈ edgeCands cl, leftEdgeScore im y x ≤ 0)
    (h2 : ∀ x ∈ edgeCands cr, rightEdgeScore im y x ≤ 0)
    (h3 : ∀ yc ∈ feRows im, feScore im lrl lrr yc ≤ 0) :
    leftEdgePick im y cl = (0, 0) ∧ rightEdgePick im y cr = (0, 0) ∧
    skewStep im ((a, b, c), cl, cr) y =
      ((a ++ [y], b ++ [0], c ++ [0]), clNext cl 0, cr) ∧
    find_front_edge im lrl lrr = im.ymax := by
  have hl : leftEdgePick im y cl = (0, 0) := pickBest_all_le _ _ _ h1
  have hr : rightEdgePick im y cr = (0, 0) := pickBest_all_le _ _ _ h2
  have hcr : crNext cr 0 = cr := by
    unfold crNext
    have h : ((cr : ℚ) + ((cr : ℚ) - (cr : ℚ)) * (1/8)) = ((cr : ℤ) : ℚ) := by ring
    rw [h, pyInt_intCast]
  refine ⟨hl, hr, ?_, ?_⟩
  · simp only [skewStep, hl, hr, hcr]
  · unfold find_front_edge
    rw [pickBest_all_le _ _ _ h3]

/-- Witness for the amended C4 at the uniform image. -/
theorem claim4_witness :
    leftEdgePick uniImg 100 50 = (0, 0) ∧ rightEdgePick uniImg 100 540 = (0, 0) ∧
    skewStep uniImg (([], [], []), 50, 540) 100 =
      (([100], [0], [0]), clNext 50 0, 540) ∧
    find_front_edge uniImg ⟨0, 0⟩ ⟨0, 0⟩ = uniImg.ymax :=
  claim4_amended_sentinel uniImg 100 50 540 [] [] [] ⟨0, 0⟩ ⟨0, 0⟩
    (fun x _ => le_of_eq (uniImg_leftScore 100 x))
    (fun x _ => le_of_eq (uniImg_rightScore 100 x))
    (fun yc _ => le_of_eq (uniImg_feScore ⟨0, 0⟩ ⟨0, 0⟩ yc))

/-! ### Claim C6 -/

/-- The quantity the claim says the left-edge search maximizes: summed intensity of the
EDGE_WIN pixels immediately OUTSIDE the card (to the left of a left-edge candidate)
minus the EDGE_WIN pixels immediately INSIDE (to the right). -/
def outsideMinusInsideLeft (im : Image) (y x : ℤ) : ℤ :=
  (rowSum im y (x - EDGE_WIN) x : ℤ) - (rowSum im y x (x + EDGE_WIN) : ℤ)

/-- Counterexample to claim C6: on a left-edge image (black below x = 50, card
material above), the code selects x = 50, but x = 50 does not maximize
outside-minus-inside over the candidates — candidate 40 scores strictly higher.  The
code maximizes INSIDE minus OUTSIDE, because the scanner convention is the opposite of
the one the claim asserts: background/holes are dark, card material is light. -/
theorem claim6_counterexample :
    (leftEdgePick eImg 100 50).1 = 50 ∧
    ((edgeCands 50).contains 40) = true ∧
    outsideMinusInsideLeft eImg 100 40 > outsideMinusInsideLeft eImg 100 50 := by
  with_unfolding_all decide

/-- Claim C6 as amended: whenever some candidate scores positively, the selected edge
position maximizes the summed intensity of the EDGE_WIN pixels immediately INSIDE the
card minus the EDGE_WIN pixels immediately OUTSIDE (mirrored between left and right
edge), consistent with intensity being LOWER for hole/background and higher for card
material per the source's documented scanner convention. -/
theorem claim6_amended_contrast (im : Image) (y c : ℤ) :
    (0 < (leftEdgePick im y c).2 →
       leftEdgeScore im y (leftEdgePick im y c).1 = (leftEdgePick im y c).2 ∧
       (leftEdgePick im y c).1 ∈ edgeCands c ∧
       ∀ x ∈ edgeCands c, leftEdgeScore im y x ≤ (leftEdgePick im y c).2) ∧
    (0 < (rightEdgePick im y c).2 →
       rightEdgeScore im y (rightEdgePick im y c).1 = (rightEdgePick im y c).2 ∧
       (rightEdgePick im y c).1 ∈ edgeCands c ∧
       ∀ x ∈ edgeCands c, rightEdgeScore im y x ≤ (rightEdgePick im y c).2) := by
  constructor
  · intro hpos
    rcases pickBest_spec (leftEdgeScore im y) (edgeCands c) 0 0 with
      ⟨heq, _⟩ | ⟨_, hat, hmem, hle⟩
    · exfalso
      unfold leftEdgePick at hpos
      rw [heq] at hpos
      exact lt_irrefl 0 hpos
    · exact ⟨hat, hmem, hle⟩
  · intro hpos
    rcases pickBest_spec (rightEdgeScore im y) (edgeCands c) 0 0 with
      ⟨heq, _⟩ | ⟨_, hat, hmem, hle⟩
    · exfalso
      unfold rightEdgePick at hpos
      rw [heq] at hpos
      exact lt_irrefl 0 hpos
    · exact ⟨hat, hmem, hle⟩

/-- Witness for the amended C6: a bright strip with its left transition at x = 50 and
its right transition at x = 60 gives both picks a strictly positive score. -/
theorem claim6_witness :
    (0 < (leftEdgePick imD 100 50).2 ∧
     leftEdgeScore imD 100 (leftEdgePick imD 100 50).1 = (leftEdgePick imD 100 50).2 ∧
     (leftEdgePick imD 100 50).1 ∈ edgeCands 50 ∧
     (∀ x ∈ edgeCands 50, leftEdgeScore imD 100 x ≤ (leftEdgePick imD 100 50).2)) ∧
    (0 < (rightEdgePick imD 100 60).2 ∧
     rightEdgeScore imD 100 (rightEdgePick imD 100 60).1 = (rightEdgePick imD 100 60).2 ∧
     (rightEdgePick imD 100 60).1 ∈ edgeCands 60 ∧
     (∀ x ∈ edgeCands 60, rightEdgeScore imD 100 x ≤ (rightEdgePick imD 100 60).2)) := by
  have hl : 0 < (leftEdgePick imD 100 50).2 := by with_unfolding_all decide
  have hr : 0 < (rightEdgePick imD 100 60).2 := by with_unfolding_all decide
  exact ⟨⟨hl, (claim6_amended_contrast imD 100 50).1 hl⟩,
         ⟨hr, (claim6_amended_contrast imD 100 60).2 hr⟩⟩

/-! ### Claim C8 -/

theorem nodupMask_sound : ∀ (l : List ℕ) (m : ℕ), nodupMask l m = true →
    l.Nodup ∧ ∀ k ∈ l, m.testBit k = false := by
  intro l
  induction l with
  | nil => intro m _; exact ⟨List.nodup_nil, by simp⟩
  | cons k t ih =>
      intro m h
      simp only [nodupMask, Bool.and_eq_true, Bool.not_eq_true_eq_eq_false] at h
      obtain ⟨hk, ht⟩ := h
      obtain ⟨htnd, hbit⟩ := ih (m ||| (1 <<< k)) ht
      have hknot : k ∉ t := by
        intro hkt
        have hfalse := hbit k hkt
        rw [Nat.one_shiftLeft, Nat.testBit_or, Nat.testBit_two_pow_self,
            Bool.or_true] at hfalse
        simp at hfalse
      refine ⟨List.nodup_cons.mpr ⟨hknot, htnd⟩, ?_⟩
      intro j hj
      rcases List.mem_cons.mp hj with hjk | hjt
      · exact hjk ▸ hk
      · have hfalse := hbit j hjt
        rw [Nat.testBit_or, Bool.or_eq_false_iff] at hfalse
        exact hfalse.1

theorem lookup_absent : ∀ (l : List (ℕ × ℕ)) (i : ℕ),
    (∀ kv ∈ l, kv.1 ≠ i) → ((l.lookup i).getD 0) = 0 := by
  intro l
  induction l with
  | nil => intro i _; rfl
  | cons a t ih =>
      intro i h
      obtain ⟨k, v⟩ := a
      have ha : (i == k) = false := by
        rw [beq_eq_false_iff_ne]
        exact Ne.symm (h (k, v) (by simp))
      simp only [List.lookup, ha]
      exact ih i (fun kv hkv => h kv (List.mem_cons_of_mem (k, v) hkv))

/-- Claim C8: the Hollerith table has exactly one entry per written key literal, 256
in all; every key is a distinct 12-bit integer below 4096 and every value a byte
below 256; looking up an absent key yields exactly 0, not an error. -/
theorem claim8_hollerith_table :
    HOLLERITH_TO_EBCDIC.length = 256 ∧
    (HOLLERITH_TO_EBCDIC.map Prod.fst).Nodup ∧
    (∀ kv ∈ HOLLERITH_TO_EBCDIC, kv.1 < 4096 ∧ kv.2 < 256) ∧
    (∀ i : ℕ, (∀ kv ∈ HOLLERITH_TO_EBCDIC, kv.1 ≠ i) → hollerithGet i = 0) := by
  refine ⟨rfl, (nodupMask_sound (HOLLERITH_TO_EBCDIC.map Prod.fst) 0 (by decide)).1,
    by decide, ?_⟩
  intro i h
  unfold hollerithGet
  exact lookup_absent HOLLERITH_TO_EBCDIC i h

/-- Witness for C8: 0xFFF is not a key of the table, and looks up as 0. -/
theorem claim8_witness :
    (∀ kv ∈ HOLLERITH_TO_EBCDIC, kv.1 ≠ 4095) ∧ hollerithGet 4095 = 0 := by
  have h : ∀ kv ∈ HOLLERITH_TO_EBCDIC, kv.1 ≠ 4095 := by decide
  exact ⟨h, claim8_hollerith_table.2.2.2 4095 h⟩

/-! ### Claim C2 -/

theorem mkCard_def (im : Image) (front : Bool) :
    mkCard im front =
      { lrl := (measure_skew im).1,
        lrr := (measure_skew im).2,
        y_front := find_front_edge im (measure_skew im).1 (measure_skew im).2,
        holes := (find_holes im (measure_skew im).1 (measure_skew im).2
          (find_front_edge im (measure_skew im).1 (measure_skew im).2) front).1,
        values := cardValues ((find_holes im (measure_skew im).1 (measure_skew im).2
          (find_front_edge im (measure_skew im).1 (measure_skew im).2) front).1),
        scan := (find_holes im (measure_skew im).1 (measure_skew im).2
          (find_front_edge im (measure_skew im).1 (measure_skew im).2) front).2 } := rfl

theorem mkCard_holes (im : Image) (front : Bool) :
    (mkCard im front).holes =
      (find_holes im (measure_skew im).1 (measure_skew im).2
        (find_front_edge im (measure_skew im).1 (measure_skew im).2) front).1 := by
  rw [mkCard_def]

theorem mkCard_values (im : Image) (front : Bool) :
    (mkCard im front).values =
      cardValues ((find_holes im (measure_skew im).1 (measure_skew im).2
        (find_front_edge im (measure_skew im).1 (measure_skew im).2) front).1) := by
  rw [mkCard_def]

theorem cardValues_getD (L : List (List ℕ)) (c : ℕ) (hc : c < L.length) :
    (cardValues L).getD c 0 = colValue (L.getD c []) := by
  unfold cardValues
  have hc3 : c < (L.map colValue).length := by rw [List.length_map]; exact hc
  rw [List.getD_eq_getElem _ _ hc3, List.getD_eq_getElem _ _ hc, List.getElem_map]

theorem find_holes_length (im : Image) (lrl lrr : LinFit) (yf : ℤ) (front : Bool) :
    ((find_holes im lrl lrr yf front).1).length = 80 := by
  rw [find_holes_eq,
    (colFold_holes_shape lrl lrr yf front cols1to80 ([], ⟨(0, 0), im⟩)).1]
  rfl

theorem find_holes_col_length (im : Image) (lrl lrr : LinFit) (yf : ℤ) (front : Bool) :
    ∀ l ∈ (find_holes im lrl lrr yf front).1, l.length = 12 := by
  simp only [find_holes_eq]
  exact (colFold_holes_shape lrl lrr yf front cols1to80 ([], ⟨(0, 0), im⟩)).2
    (by intro l hl; cases hl)

/-- Claim C2: every entry of the derived value array is the 12-bit packing of its
stored column, row 1 being the most significant bit (weight `2^(12-r)` for row `r`). -/
theorem claim2_column_value_bits (im : Image) (front : Bool) (c : ℕ) (hc : c < 80) :
    (mkCard im front).values.getD c 0 =
      ∑ r in Finset.Icc 1 12,
        (((mkCard im front).holes.getD c []).getD (r - 1) 0) * 2 ^ (12 - r) := by
  have hlen : (mkCard im front).holes.length = 80 := by
    rw [mkCard_holes]
    exact find_holes_length im _ _ _ front
  have hc2 : c < (mkCard im front).holes.length := by rw [hlen]; exact hc
  have hmem : (mkCard im front).holes.getD c [] ∈ (mkCard im front).holes := by
    rw [List.getD_eq_getElem _ _ hc2]
    exact List.getElem_mem hc2
  have hcol12 : ((mkCard im front).holes.getD c []).length = 12 := by
    rw [mkCard_holes] at hmem ⊢
    exact find_holes_col_length im _ _ _ front _ hmem
  have hmap : (mkCard im front).values.getD c 0 =
      colValue ((mkCard im front).holes.getD c []) := by
    rw [mkCard_values, ← mkCard_holes]
    exact cardValues_getD _ c hc2
  obtain ⟨a1, a2, a3, a4, a5, a6, a7, a8, a9, a10, a11, a12, hdl⟩ :=
    length_twelve_destruct _ hcol12
  rw [hmap, hdl, colValue_twelve]
  rw [show (Finset.Icc 1 12 : Finset ℕ) =
        {1, 2, 3, 4, 5, 6, 7, 8, 9, 10, 11, 12} by decide]
  rw [Finset.sum_insert (by decide), Finset.sum_insert (by decide),
      Finset.sum_insert (by decide), Finset.sum_insert (by decide),
      Finset.sum_insert (by decide), Finset.sum_insert (by decide),
      Finset.sum_insert (by decide), Finset.sum_insert (by decide),
      Finset.sum_insert (by decide), Finset.sum_insert (by decide),
      Finset.sum_insert (by decide), Finset.sum_singleton]
  norm_num [List.getD]
  ring

/-- Witness for C2 at column 0 of an arbitrary image. -/
theorem claim2_witness :
    (0 : ℕ) < 80 ∧
    (mkCard imC2 true).values.getD 0 0 =
      ∑ r in Finset.Icc 1 12,
        (((mkCard imC2 true).holes.getD 0 []).getD (r - 1) 0) * 2 ^ (12 - r) :=
  ⟨by decide, claim2_column_value_bits imC2 true 0 (by decide)⟩

/-! ### Claim C3 -/

theorem mkCard_scan (im : Image) (front : Bool) :
    (mkCard im front).scan =
      (find_holes im (measure_skew im).1 (measure_skew im).2
        (find_front_edge im (measure_skew im).1 (measure_skew im).2) front).2 := by
  rw [mkCard_def]

/-- Claim C3 as amended: with no debug output configured the core can still write to
the image — every pixel of the image after the full pipeline equals either its value
at entry or the white value (255, broadcast over the channels), the latter arising
exactly from the white outlines that `is_hole` draws, unconditionally, around every
cell it classifies as punched. -/
theorem find_holes_pix (im : Image) (lrl lrr : LinFit) (yf : ℤ) (front : Bool) (p q : ℤ) :
    ((find_holes im lrl lrr yf front).2).im.pix p q = im.pix p q ∨
    ((find_holes im lrl lrr yf front).2).im.pix p q = white im := by
  rw [find_holes_eq]
  exact colFold_pix lrl lrr yf front cols1to80 p q ([], ⟨(0, 0), im⟩)

theorem claim3_amended_pixel_or_white (im : Image) (front : Bool) (p q : ℤ) :
    (mkCard im front).scan.im.pix p q = im.pix p q ∨
    (mkCard im front).scan.im.pix p q = white im := by
  rw [mkCard_scan]
  exact find_holes_pix im (measure_skew im).1 (measure_skew im).2
    (find_front_edge im (measure_skew im).1 (measure_skew im).2) front p q

theorem exImg_pix200 (y x : ℤ) (hx1 : 95 ≤ x) (hx2 : x < 538) : exImg.pix y x = 200 := by
  show (if 80 ≤ x ∧ x ≤ 94 ∧ 1138 ≤ y ∧ y ≤ 1148 then 0
        else if 50 ≤ x ∧ x < 538 then 200 else 0) = 200
  rw [if_neg (by omega), if_pos (by omega)]

theorem exImg_center (yc : ℚ) : center_x ⟨0, 50⟩ ⟨0, 538⟩ yc = 294 := by
  unfold center_x
  have h1 : (LinFit.mk 0 50).intercept + yc * (LinFit.mk 0 50).slope = ((50 : ℤ) : ℚ) := by
    show (50 : ℚ) + yc * 0 = ((50 : ℤ) : ℚ)
    norm_num
  have h2 : (LinFit.mk 0 538).intercept + yc * (LinFit.mk 0 538).slope = ((538 : ℤ) : ℚ) := by
    show (538 : ℚ) + yc * 0 = ((538 : ℤ) : ℚ)
    norm_num
  rw [h1, h2, pyInt_intCast, pyInt_intCast]
  have h3 : (((50 : ℤ) : ℚ) + ((538 : ℤ) : ℚ)) * (1/2) = ((294 : ℤ) : ℚ) := by norm_num
  rw [h3, pyInt_intCast]

theorem exImg_feScore (yc : ℤ) (h1 : 982 ≤ yc) (h2 : yc ≤ 1161) :
    feScore exImg ⟨0, 50⟩ ⟨0, 538⟩ yc = 0 := by
  simp only [feScore]
  rw [exImg_center]
  rw [rectSum_const exImg (yc - EDGE_WIN) yc (294 - EDGE_WIN) (294 + EDGE_WIN) 200
        (by
          intro y x _ _ hx1 hx2
          simp only [EDGE_WIN] at hx1 hx2
          exact exImg_pix200 y x (by omega) (by omega)),
      rectSum_const exImg yc (yc + EDGE_WIN) (294 - EDGE_WIN) (294 + EDGE_WIN) 200
        (by
          intro y x _ _ hx1 hx2
          simp only [EDGE_WIN] at hx1 hx2
          exact exImg_pix200 y x (by omega) (by omega))]
  have e1 : yc - (yc - EDGE_WIN) = (10 : ℤ) := by simp only [EDGE_WIN]; ring
  have e2 : yc + EDGE_WIN - yc = (10 : ℤ) := by simp only [EDGE_WIN]; ring
  have e3 : 294 + EDGE_WIN - (294 - EDGE_WIN) = (20 : ℤ) := by simp only [EDGE_WIN]; ring
  rw [e1, e2, e3]
  norm_num

theorem exImg_fe_all : ∀ yc ∈ feRows exImg, feScore exImg ⟨0, 50⟩ ⟨0, 538⟩ yc ≤ 0 := by
  intro yc hyc
  unfold feRows at hyc
  rw [List.mem_map] at hyc
  obtain ⟨i, hi, rfl⟩ := hyc
  rw [List.mem_range] at hi
  have hym : exImg.ymax = 1181 := rfl
  rw [hym]
  exact le_of_eq (exImg_feScore _ (by omega) (by omega))

theorem find_front_edge_def (im : Image) (lrl lrr : LinFit) :
    find_front_edge im lrl lrr =
      (pickBest (feScore im lrl lrr) (im.ymax, 0) (feRows im)).1 := rfl

theorem exImg_front_edge : find_front_edge exImg ⟨0, 50⟩ ⟨0, 538⟩ = 1181 := by
  rw [find_front_edge_def, pickBest_all_le _ _ _ exImg_fe_all]
  rfl

theorem rowSum_congr (im im' : Image) (y y' a b : ℤ)
    (h : ∀ x, a ≤ x → x < b → im.pix y x = im'.pix y' x) :
    rowSum im y a b = rowSum im' y' a b := by
  unfold rowSum
  congr 1
  apply List.map_congr_left
  intro x hx
  obtain ⟨h1, h2⟩ := intRange_bounds hx
  exact h x h1 h2

theorem pickBest_congr (f g : ℤ → ℤ) :
    ∀ (xs : List ℤ), (∀ x ∈ xs, f x = g x) →
      ∀ init : ℤ × ℤ, pickBest f init xs = pickBest g init xs := by
  intro xs
  induction xs with
  | nil => intro _ _; rfl
  | cons a t ih =>
      intro h init
      rw [pickBest_cons, pickBest_cons, h a (List.mem_cons_self a t)]
      exact ih (fun x hx => h x (List.mem_cons_of_mem a hx)) _

/-- Away from the dark rectangle's columns, `exImg` does not depend on the row. -/
theorem exImg_pix_out (y x : ℤ) (h : x < 80 ∨ 94 < x) :
    exImg.pix y x = exImg.pix 0 x := by
  show (if 80 ≤ x ∧ x ≤ 94 ∧ 1138 ≤ y ∧ y ≤ 1148 then 0
        else if 50 ≤ x ∧ x < 538 then 200 else 0) =
       (if 80 ≤ x ∧ x ≤ 94 ∧ 1138 ≤ (0 : ℤ) ∧ (0 : ℤ) ≤ 1148 then 0
        else if 50 ≤ x ∧ x < 538 then 200 else 0)
  rw [if_neg (show ¬ (80 ≤ x ∧ x ≤ 94 ∧ 1138 ≤ y ∧ y ≤ 1148) by omega),
      if_neg (show ¬ (80 ≤ x ∧ x ≤ 94 ∧ 1138 ≤ (0 : ℤ) ∧ (0 : ℤ) ≤ 1148) by omega)]

/-- The left-edge search around center 50 only reads columns below 80, so on `exImg`
its outcome is the same on every row. -/
theorem exImg_leftPick (y : ℤ) : leftEdgePick exImg y 50 = leftEdgePick exImg 0 50 := by
  unfold leftEdgePick
  apply pickBest_congr
  intro x hx
  unfold edgeCands at hx
  have hb := intRange_bounds hx
  simp only [EDGE_WIN] at hb
  unfold leftEdgeScore
  have e1 : rowSum exImg y x (x + EDGE_WIN) = rowSum exImg 0 x (x + EDGE_WIN) := by
    apply rowSum_congr
    intro x' h1 h2
    apply exImg_pix_out
    simp only [EDGE_WIN] at h2
    omega
  have e2 : rowSum exImg y (x - EDGE_WIN) x = rowSum exImg 0 (x - EDGE_WIN) x := by
    apply rowSum_congr
    intro x' h1 h2
    apply exImg_pix_out
    simp only [EDGE_WIN] at h1
    omega
  rw [e1, e2]

/-- The right-edge search around center 540 only reads columns above 94, so on
`exImg` its outcome is the same on every row. -/
theorem exImg_rightPick (y : ℤ) :
    rightEdgePick exImg y 540 = rightEdgePick exImg 0 540 := by
  unfold rightEdgePick
  apply pickBest_congr
  intro x hx
  unfold edgeCands at hx
  have hb := intRange_bounds hx
  simp only [EDGE_WIN] at hb
  unfold rightEdgeScore
  have e1 : rowSum exImg y x (x + EDGE_WIN) = rowSum exImg 0 x (x + EDGE_WIN) := by
    apply rowSum_congr
    intro x' h1 h2
    apply exImg_pix_out
    simp only [EDGE_WIN] at h1
    omega
  have e2 : rowSum exImg y (x - EDGE_WIN) x = rowSum exImg 0 (x - EDGE_WIN) x := by
    apply rowSum_congr
    intro x' h1 h2
    apply exImg_pix_out
    simp only [EDGE_WIN] at h1
    omega
  rw [e1, e2]

/-- One `measure_skew` sampling step on `exImg` at centers (50, 540): every row picks
the edges at 50 and 538 and the centers stay (50, 540). -/
theorem skewStep_exImg (a b c : List ℤ) (y : ℤ) :
    skewStep exImg ((a, b, c), 50, 540) y =
      ((a ++ [y], b ++ [50], c ++ [538]), 50, 540) := by
  have hl : (leftEdgePick exImg 0 50).1 = 50 := by with_unfolding_all decide
  have hr : (rightEdgePick exImg 0 540).1 = 538 := by with_unfolding_all decide
  have hcl : clNext 50 50 = 50 := by with_unfolding_all decide
  have hcr : crNext 540 538 = 540 := by with_unfolding_all decide
  simp only [skewStep, exImg_leftPick, exImg_rightPick, hl, hr, hcl, hcr]

theorem skewLoop_exImg :
    skewLoop exImg =
      (([100, 200, 300, 400, 500, 600, 700, 800, 900],
        [50, 50, 50, 50, 50, 50, 50, 50, 50],
        [538, 538, 538, 538, 538, 538, 538, 538, 538]), 50, 540) := by
  have hrows : sampleRows exImg = [100, 200, 300, 400, 500, 600, 700, 800, 900] := by
    with_unfolding_all decide
  have hinit : ((([] : List ℤ), ([] : List ℤ), ([] : List ℤ)), EXPECT_LEFT_EDGE,
      exImg.xmax + EXPECT_RIGHT_EDGE) =
      ((([] : List ℤ), ([] : List ℤ), ([] : List ℤ)), (50 : ℤ), (540 : ℤ)) := by
    with_unfolding_all decide
  unfold skewLoop
  rw [hrows, hinit]
  simp only [List.foldl_cons, List.foldl_nil, skewStep_exImg, List.nil_append,
    List.cons_append]

theorem measure_skew_exImg : measure_skew exImg = (⟨0, 50⟩, ⟨0, 538⟩) := by
  have h1 : fitLine [100, 200, 300, 400, 500, 600, 700, 800, 900]
      [50, 50, 50, 50, 50, 50, 50, 50, 50] = ⟨0, 50⟩ := by with_unfolding_all decide
  have h2 : fitLine [100, 200, 300, 400, 500, 600, 700, 800, 900]
      [538, 538, 538, 538, 538, 538, 538, 538, 538] = ⟨0, 538⟩ := by
    with_unfolding_all decide
  simp only [measure_skew, skewLoop_exImg]
  rw [h1, h2]

/-- Counterexample to claim C3: on a synthetic scan with its single punched hole at
grid cell (1, 1) and no debug output configured, the pipeline mutates the image —
`is_hole` draws a white outline around the detected hole, unguarded by the debug
flag, so the final image differs from the image at entry (pixel (1145, 91) becomes
255 where the input was 0). -/
theorem claim3_counterexample :
    (mkCard exImg true).scan.im.pix 1145 91 ≠ exImg.pix 1145 91 := by
  have hms : measure_skew exImg = (⟨0, 50⟩, ⟨0, 538⟩) := measure_skew_exImg
  have hms1 : (measure_skew exImg).1 = ⟨0, 50⟩ := by rw [hms]
  have hms2 : (measure_skew exImg).2 = ⟨0, 538⟩ := by rw [hms]
  have hcell : ((holeCell ⟨0, 50⟩ ⟨0, 538⟩ 1181 ⟨(0, 0), exImg⟩ 1 1).2).im.pix 1145 91 = 255 ∧
      ((holeCell ⟨0, 50⟩ ⟨0, 538⟩ 1181 ⟨(0, 0), exImg⟩ 1 1).2).im.channels = none := by
    with_unfolding_all decide
  have hwhite : white ((holeCell ⟨0, 50⟩ ⟨0, 538⟩ 1181 ⟨(0, 0), exImg⟩ 1 1).2).im = 255 :=
    white_none _ hcell.2
  have hmain : (mkCard exImg true).scan.im.pix 1145 91 = 255 := by
    rw [mkCard_scan, hms1, hms2, exImg_front_edge, find_holes_eq]
    rw [show cols1to80 = 1 ::
        [2, 3, 4, 5, 6, 7, 8, 9, 10, 11, 12, 13, 14, 15, 16, 17, 18, 19, 20,
         21, 22, 23, 24, 25, 26, 27, 28, 29, 30, 31, 32, 33, 34, 35, 36, 37, 38, 39, 40,
         41, 42, 43, 44, 45, 46, 47, 48, 49, 50, 51, 52, 53, 54, 55, 56, 57, 58, 59, 60,
         61, 62, 63, 64, 65, 66, 67, 68, 69, 70, 71, 72, 73, 74, 75, 76, 77, 78, 79, 80]
      from rfl, List.foldl_cons]
    -- the state after the first column keeps pixel (1145, 91) white:
    have hcol : ((colStep ⟨0, 50⟩ ⟨0, 538⟩ 1181 true ([], ⟨(0, 0), exImg⟩) 1).2).im.pix 1145 91 =
        white ((colStep ⟨0, 50⟩ ⟨0, 538⟩ 1181 true ([], ⟨(0, 0), exImg⟩) 1).2).im := by
      rw [colStep_snd, colLoop_eq_fold]
      rw [show rows1to12 = 1 :: [2, 3, 4, 5, 6, 7, 8, 9, 10, 11, 12] from rfl,
          List.foldl_cons]
      apply rowFold_white_pres
      rw [rowStep_snd]
      rw [hcell.1, hwhite]
    have hrest := colFold_white_pres ⟨0, 50⟩ ⟨0, 538⟩ 1181 true
        [2, 3, 4, 5, 6, 7, 8, 9, 10, 11, 12, 13, 14, 15, 16, 17, 18, 19, 20,
         21, 22, 23, 24, 25, 26, 27, 28, 29, 30, 31, 32, 33, 34, 35, 36, 37, 38, 39, 40,
         41, 42, 43, 44, 45, 46, 47, 48, 49, 50, 51, 52, 53, 54, 55, 56, 57, 58, 59, 60,
         61, 62, 63, 64, 65, 66, 67, 68, 69, 70, 71, 72, 73, 74, 75, 76, 77, 78, 79, 80]
        1145 91 (colStep ⟨0, 50⟩ ⟨0, 538⟩ 1181 true ([], ⟨(0, 0), exImg⟩) 1) hcol
    rw [hrest]
    apply white_none
    rw [colFold_channels]
    rw [colStep_snd, colLoop_eq_fold,
        show rows1to12 = 1 :: [2, 3, 4, 5, 6, 7, 8, 9, 10, 11, 12] from rfl,
        List.foldl_cons, rowFold_channels, rowStep_snd, hcell.2]
  have hex : exImg.pix 1145 91 = 0 := by with_unfolding_all decide
  rw [hmain, hex]
  norm_num

end Florida2000
